import Mathlib

/-!
Verification of the pastex markup pipeline (parser, evaluation engine,
HTML emitter) against its natural-language specification.

The development is a shallow embedding of the Rust sources:
  * `src/pastex_parser/src/lib.rs`  — the recursive-descent parser,
  * `src/pastex/src/engine.rs`      — the evaluation engine,
  * `src/pastex/src/commands/*.rs`  — the command registries and handlers,
  * `src/pastex/src/document/*.rs`  — the document data model,
  * `src/pastex/src/output/html.rs` and `src/dolmen/src/lib.rs` — the emitter.

Recursive functions that in Rust run on ever-shrinking string slices are
embedded with an explicit fuel parameter (structural recursion on the fuel)
so that every definition is executable by kernel reduction; public wrappers
instantiate the fuel with a bound derived from the input size.  Rust panics
and nom parse errors are modelled as `Except` errors.
-/

set_option autoImplicit false

namespace PX

/-! ### Syntax-tree layer (parser output types, pastex_parser/src/lib.rs) -/

/-- Command name: local name and optional namespace
(`CommandName` in pastex_parser/src/lib.rs:96).  Equality compares both
fields, as the derived `PartialEq` does. -/
structure CName where
  name : String
  ns : Option String
deriving DecidableEq, Repr

/-- Display form of a command name (`impl fmt::Display for CommandName`,
pastex_parser/src/lib.rs:98-105): `ns:name` when a namespace is present,
otherwise just `name`. -/
def CName.display (c : CName) : String :=
  match c.ns with
  | some n => n ++ ":" ++ c.name
  | Option.none => c.name

mutual
/-- Syntax element (`Element` in pastex_parser/src/lib.rs:116-125).
Spans are owned strings in the embedding (the Rust borrows are
non-owning slices of the input buffer). -/
inductive PElement where
  | raw (s : String)
  | comment (s : String)
  | lineBreak
  | command (cmd : PCommand)

/-- Command call (`Command` in pastex_parser/src/lib.rs:73-85). -/
inductive PCommand where
  | mk (name : String) (ns : Option String) (params : List (String × ParamValue))
       (content : List PElement) (block : Bool)

/-- Parameter value (`ParamValue` in pastex_parser/src/lib.rs:18-25). -/
inductive ParamValue where
  | none
  | text (s : String)
  | stream (s : List PElement)
end

/-- `Params` (pastex_parser/src/lib.rs:29): a map from parameter name to
value, embedded as an association list with `HashMap::insert` overwrite
semantics. -/
abbrev Params := List (String × ParamValue)

def PCommand.name : PCommand → String
  | .mk n _ _ _ _ => n

def PCommand.ns : PCommand → Option String
  | .mk _ n _ _ _ => n

def PCommand.params : PCommand → Params
  | .mk _ _ p _ _ => p

def PCommand.content : PCommand → List PElement
  | .mk _ _ _ c _ => c

def PCommand.block : PCommand → Bool
  | .mk _ _ _ _ b => b

/-- `Command::command_name` (pastex_parser/src/lib.rs:109-111). -/
def PCommand.cname (c : PCommand) : CName :=
  ⟨c.name, c.ns⟩

/-- Display of a command's name, as used by the engine's
`[[unknown command …]]` placeholder. -/
def PCommand.display (c : PCommand) : String :=
  c.cname.display

/-- `HashMap::insert` on the association-list model of `Params`. -/
def paramsInsert (ps : Params) (k : String) (v : ParamValue) : Params :=
  if ps.any (fun p => p.1 = k) then
    ps.map (fun p => if p.1 = k then (k, v) else p)
  else
    ps ++ [(k, v)]

/-- `HashMap::get` on `Params`. -/
def paramsGet (ps : Params) (k : String) : Option ParamValue :=
  (ps.find? (fun p => p.1 = k)).map (fun p => p.2)

/-! ### Parser (pastex_parser/src/lib.rs)

The Rust parser is a nom parser over string slices.  Fatal outcomes are
nom errors (`MalformedCommand`-style failures) and panics (mismatched or
stray `end` blocks, trailing content); both are modelled as `Except`
errors.  The embedding works on `List Char`; each Rust combinator is
translated at its call site. -/

/-- Parse errors and panics of the parser.  `malformed` stands for any nom
error (a failed `ident`, missing brace, or bad parameter list);
`mismatchedBlock` is the panic at pastex_parser/src/lib.rs:346 and carries
the closing name then the open-context name; `strayEnd` is the panic at
line 356; `extraTrailing` the panic at line 380.  `fuelOut` is an artifact
of the fuel embedding and is never produced when the wrapper's fuel bound
is used. -/
inductive PErr where
  | malformed
  | mismatchedBlock (closing : CName) (opened : CName)
  | strayEnd (closing : CName)
  | extraTrailing
  | fuelOut
deriving DecidableEq, Repr

/-- The escape characters recognised immediately after the command sigil
(pastex_parser/src/lib.rs:213-218): comment sigil `%`, command sigil `\`,
closing content brace, and newline.  Note the opening brace is NOT in this
set. -/
def escapeChars : List Char := ['%', '\\', '}', '\n']

/-- `ident` (pastex_parser/src/lib.rs:157-161): `take_while1` of
alphanumeric characters.  Rust `char::is_alphanumeric` is Unicode; the
embedding uses `Char.isAlphanum`, which agrees on the ASCII identifiers
the pipeline manipulates. -/
def identP (l : List Char) : Option (List Char × List Char) :=
  if (l.takeWhile Char.isAlphanum).isEmpty then Option.none
  else some (l.takeWhile Char.isAlphanum, l.dropWhile Char.isAlphanum)

/-- `command_name` (pastex_parser/src/lib.rs:195-208): an identifier,
optionally followed by `:` and a second identifier (namespace first in
the source text).  The `opt(..)` backtracks completely when the part
after `:` fails. -/
def commandNameP (l : List Char) : Option (CName × List Char) :=
  match identP l with
  | Option.none => Option.none
  | some (left, rest) =>
    match rest with
    | ':' :: rest2 =>
      match identP rest2 with
      | Option.none => some (⟨String.mk left, Option.none⟩, rest)
      | some (right, rest3) => some (⟨String.mk right, some (String.mk left)⟩, rest3)
    | _ => some (⟨String.mk left, Option.none⟩, rest)

/-- One whitespace skip, `whitespace` (pastex_parser/src/lib.rs:163-167):
`take_while` (possibly empty) of Unicode whitespace. -/
def skipWs (l : List Char) : List Char :=
  l.dropWhile Char.isWhitespace

/-- `command_params` (pastex_parser/src/lib.rs:169-193).  The loop skips
whitespace, stops at `]`, reads a bare identifier (inserted with value
`ParamValue::None`), then skips whitespace and an optional `,`.  A
non-identifier character (such as `=`) where an identifier is expected is
a nom error: the parser accepts only the bare-flag form and never
constructs `ParamValue::Text` or `ParamValue::Stream`. -/
def commandParamsP : Nat → Params → List Char → Except PErr (Params × List Char)
  | 0, _, _ => .error .fuelOut
  | fuel+1, ps, l =>
    let l1 := skipWs l
    match l1 with
    | ']' :: rest => .ok (ps, rest)
    | _ =>
      match identP l1 with
      | Option.none => .error .malformed
      | some (id, rest) =>
        let ps1 := paramsInsert ps (String.mk id) ParamValue.none
        let rest1 := skipWs rest
        let rest2 := match rest1 with
          | ',' :: r => r
          | _ => rest1
        commandParamsP fuel ps1 rest2

/-- The optional parameter bracket before a command's content
(pastex_parser/src/lib.rs:227-232). -/
def paramsStep (l : List Char) : Except PErr (Params × List Char) :=
  match l with
  | '[' :: rest =>
    (commandParamsP (rest.length + 1) [] rest).map (fun pr => (pr.1, pr.2))
  | _ => .ok ([], l)

/-- The `{ ident (":" ident)? }` form that follows `begin` and `end`
(pastex_parser/src/lib.rs:237-241). -/
def blockNameP (l : List Char) : Option (CName × List Char) :=
  match l with
  | '{' :: rest =>
    match commandNameP rest with
    | some (n, '}' :: r) => some (n, r)
    | _ => Option.none
  | _ => Option.none

/-- Whether a character continues a raw-text run, i.e. is none of the
stop characters of `raw` (pastex_parser/src/lib.rs:272-278): command
sigil, closing content brace, comment sigil. -/
def rawCont (c : Char) : Bool :=
  !(c = '\\' || c = '}' || c = '%')

mutual
/-- The stream-parsing loop `top_loop_ctx` (pastex_parser/src/lib.rs:304-369)
with the element dispatch of `top` (288-298) inlined into its match arms.
Terminates on a closing brace (left in the stream for the parent,
line 310-314) or an empty buffer; otherwise reads a comment, a command
(handled by `commandTail` after the sigil) or a raw run. -/
def topLoop : Nat → Option CName → List Char → Except PErr (List Char × List PElement)
  | 0, _, _ => .error .fuelOut
  | fuel+1, ctx, buf =>
    match buf with
    | [] => .ok ([], [])
    | '}' :: rest => .ok ('}' :: rest, [])
    | '%' :: rest =>
      -- `comment` (lib.rs:280-286): take_till newline, newline excluded.
      let tok := rest.takeWhile (fun c => !(c = '\n'))
      let rest1 := rest.dropWhile (fun c => !(c = '\n'))
      (topLoop fuel ctx rest1).map (fun r => (r.1, PElement.comment (String.mk tok) :: r.2))
    | '\\' :: rest =>
      match rest with
      | [] => .error .malformed
      | c :: rest2 =>
        if c ∈ escapeChars then
          -- `CommandType::Escape` (lib.rs:213-220) pushed as `Element::Raw`
          -- (lib.rs:325-328).
          (topLoop fuel ctx rest2).map (fun r => (r.1, PElement.raw (String.mk [c]) :: r.2))
        else
          commandTail fuel ctx (c :: rest2)
    | c :: rest =>
      -- `raw` (lib.rs:272-278); the head is not a stop character here.
      let tok := c :: rest.takeWhile rawCont
      let rest1 := rest.dropWhile rawCont
      (topLoop fuel ctx rest1).map (fun r => (r.1, PElement.raw (String.mk tok) :: r.2))

/-- The remainder of `command` (pastex_parser/src/lib.rs:210-270) after the
escape check, together with the `Start`/`End`/`Normal` handling of the
calling loop (lib.rs:322-363).  `ctx` is the loop's block context. -/
def commandTail : Nat → Option CName → List Char → Except PErr (List Char × List PElement)
  | 0, _, _ => .error .fuelOut
  | fuel+1, ctx, buf =>
    match commandNameP buf with
    | Option.none => .error .malformed
    | some (name, cur0) =>
      match paramsStep cur0 with
      | .error e => .error e
      | .ok (params, cur) =>
        if name = ⟨"begin", Option.none⟩ ∨ name = ⟨"end", Option.none⟩ then
          match blockNameP cur with
          | Option.none => .error .malformed
          | some (real, cur2) =>
            if name.name = "begin" then
              -- `CommandType::Start` (lib.rs:329-342): nested parse in the
              -- block's context; the produced command has block = true.
              match topLoop fuel (some real) cur2 with
              | .error e => .error e
              | .ok (cur3, content) =>
                (topLoop fuel ctx cur3).map (fun r =>
                  (r.1, PElement.command (PCommand.mk real.name real.ns params content true) :: r.2))
            else
              -- `CommandType::End` (lib.rs:343-362): outside a block this is
              -- a stray end; in a block the names must match, otherwise the
              -- mismatched-block panic fires; on a match the loop returns.
              match ctx with
              | Option.none => .error (.strayEnd real)
              | some start =>
                if start ≠ real then .error (.mismatchedBlock real start)
                else .ok (cur2, [])
        else
          match cur with
          | '{' :: inner =>
            -- content parse (lib.rs:256-260): nested `top_loop` with no block
            -- context, then the closing brace is consumed.
            match topLoop fuel Option.none inner with
            | .error e => .error e
            | .ok (after, contentEls) =>
              match after with
              | '}' :: after2 =>
                (topLoop fuel ctx after2).map (fun r =>
                  (r.1, PElement.command (PCommand.mk name.name name.ns params contentEls false) :: r.2))
              | _ => .error .malformed
          | _ =>
            (topLoop fuel ctx cur).map (fun r =>
              (r.1, PElement.command (PCommand.mk name.name name.ns params [] false) :: r.2))
end

/-- `document` (pastex_parser/src/lib.rs:376-384): run the top-level loop;
unconsumed input (a stray closing brace) is the `ExtraTrailing` panic.
The fuel bound `2·|s| + 2` dominates the call depth, every recursive call
of the loop being preceded by the consumption of at least one character
(with at most one interposed `commandTail` call per character). -/
def document (s : String) : Except PErr (List PElement) :=
  match topLoop (2 * s.data.length + 2) Option.none s.data with
  | .error e => .error e
  | .ok (rest, res) => if rest.isEmpty then .ok res else .error .extraTrailing

/-! ### Document layer (pastex/src/document/mod.rs, document/metadata.rs) -/

/-- `SpanFormat` (document/mod.rs:17-21).  The `Link` field named `to` in
the source is called `dest` here because `to` is reserved in Lean. -/
inductive SpanFormat where
  | code
  | strong
  | link (dest : String) (blank : Bool)
deriving Repr

/-- `Span` (document/mod.rs:23-29). -/
inductive Span where
  | text (s : String)
  | format (f : SpanFormat) (inner : List Span)
  | lineBreak
  | raw (s : String)
deriving Repr

/-- `BlockFormat` (document/mod.rs:8-14). -/
inductive BlockFormat where
  | paragraph
  | code
  | heading (level : Nat)
  | raw
deriving DecidableEq, Repr

/-- `Block` (document/mod.rs:32): a block format with its span sequence. -/
structure Block where
  fmt : BlockFormat
  spans : List Span
deriving Repr

/-- `Metadata` (document/metadata.rs:37-57) with its `Default`. -/
structure Metadata where
  title : Option String := Option.none
  author : Option String := Option.none
  date : Option String := Option.none
  keywords : List String := []
  draft : Bool := false
  abstr : Option (List Block) := Option.none
deriving Repr

instance : Inhabited Metadata := ⟨{}⟩

/-- `Document` (document/mod.rs:34-37). -/
structure Document where
  outline : List Block
  metadata : Metadata
deriving Repr

/-- `RootSpan` (engine.rs:6-12). -/
inductive RootSpan where
  | text (s : String)
  | block (f : BlockFormat) (spans : List Span)
  | format (f : SpanFormat) (inner : List Span)
  | paragraphBreak
  | lineBreak
deriving Repr

/-- `impl From<Span> for RootSpan` (engine.rs:14-22).  The source match has
no arm for `Span::Raw` (the snapshot is non-exhaustive there); that case is
unreachable through the registered command set, and the embedding totalises
it as a text root span. -/
def spanToRootSpan : Span → RootSpan
  | .format f s => .format f s
  | .lineBreak => .lineBreak
  | .text t => .text t
  | .raw r => .text r

/-! ### Text processors (engine.rs:24-89) -/

/-- One `text_item` of the top-level text tokenizer (engine.rs:40-43), in
the alternation order of the source: a maximal non-whitespace word, a
single newline not followed by a newline (value one space), or a maximal
run of non-newline whitespace (value one space).  Fails (`none`) at a
paragraph break or at end of input. -/
def textItem : List Char → Option (List Char × List Char)
  | [] => Option.none
  | c :: rest =>
    if !c.isWhitespace then
      some (c :: rest.takeWhile (fun d => !d.isWhitespace),
            rest.dropWhile (fun d => !d.isWhitespace))
    else if c = '\n' then
      if rest.head? = some '\n' then Option.none
      else some ([' '], rest)
    else
      some ([' '], (c :: rest).dropWhile (fun d => !(d = '\n') && d.isWhitespace))

/-- `many1(text_item)` collected into one string (the `text` parser of
engine.rs:45), embedded as a run of items with their pieces concatenated.
Fuel dominates the number of items (each consumes at least one
character). -/
def tlText : Nat → List Char → (List Char × List Char)
  | 0, l => ([], l)
  | fuel+1, l =>
    match textItem l with
    | Option.none => ([], l)
    | some (piece, rest) =>
      let r := tlText fuel rest
      (piece ++ r.1, r.2)

/-- The token alternation `many1(pbreak.or(text))` of `toplevel_text`
(engine.rs:32-47): a paragraph break is one newline followed by at least
one more (consuming the whole newline run); otherwise a text run. -/
def tlTokens : Nat → List Char → List RootSpan
  | 0, _ => []
  | fuel+1, l =>
    match l with
    | [] => []
    | '\n' :: '\n' :: rest =>
      RootSpan.paragraphBreak :: tlTokens fuel (rest.dropWhile (fun c => c = '\n'))
    | _ =>
      if (tlText (l.length + 1) l).1.isEmpty then []
      else RootSpan.text (String.mk (tlText (l.length + 1) l).1)
        :: tlTokens fuel (tlText (l.length + 1) l).2

/-- Whether a root span is a paragraph break. -/
def isPBreak : RootSpan → Bool
  | .paragraphBreak => true
  | _ => false

/-- `toplevel_text` (engine.rs:24-52): tokenize, then drop the leading
paragraph breaks (the `skip_while` of line 50).  The source unwraps the
parse; it is only ever called on non-empty text, on which the token run
always succeeds. -/
def toplevel_text (t : String) : List RootSpan :=
  (tlTokens (t.data.length + 1) t.data).dropWhile isPBreak

/-- The token loop of `InlineTextProcessor::process` (engine.rs:64-78):
`many0` of a maximal non-whitespace word or a maximal whitespace run
(value one space), each becoming its own `Span::Text`. -/
def inlineTokens : Nat → List Char → List Span
  | 0, _ => []
  | _+1, [] => []
  | fuel+1, c :: rest =>
    if !c.isWhitespace then
      Span.text (String.mk (c :: rest.takeWhile (fun d => !d.isWhitespace)))
        :: inlineTokens fuel (rest.dropWhile (fun d => !d.isWhitespace))
    else
      Span.text " " :: inlineTokens fuel ((c :: rest).dropWhile Char.isWhitespace)

/-- `InlineTextProcessor::process` (engine.rs:62-78). -/
def inlineProcess (t : String) : List Span :=
  inlineTokens (t.data.length + 1) t.data

/-- `PreserveTextProcessor::process` (engine.rs:80-89): drop leading
newlines, keep the rest verbatim in a single text span. -/
def preserveProcess (t : String) : List Span :=
  [Span.text (String.mk (t.data.dropWhile (fun c => c = '\n')))]

/-- The two text-processor strategies passed to `element::<P>`
(engine.rs:54-60). -/
inductive TPKind where
  | inlineTP
  | preserveTP

def TPKind.process : TPKind → String → List Span
  | .inlineTP, t => inlineProcess t
  | .preserveTP, t => preserveProcess t

/-! ### Command registries (pastex/src/commands/mod.rs, inline.rs, toplevel.rs) -/

/-- Engine-side fatal outcomes.  `metaOops` is the panic in the metadata
content reduction (commands/toplevel.rs:43); `fuelOut` is the fuel
artifact, never produced under the wrappers' bounds. -/
inductive EErr where
  | metaOops
  | fuelOut
deriving DecidableEq, Repr

/-- The keys of the inline registry `COMMANDS` (commands/mod.rs:51-54).
Only `code` and `strong` are registered; in particular `link` and `raw`
(defined in commands/inline.rs) are absent. -/
inductive InlineCmd where
  | code
  | strong
deriving DecidableEq, Repr

/-- `COMMANDS.get((name, namespace))` (commands/mod.rs:51-54). -/
def inlineLookup (name : String) (ns : Option String) : Option InlineCmd :=
  if name = "code" ∧ ns = Option.none then some InlineCmd.code
  else if name = "strong" ∧ ns = Option.none then some InlineCmd.strong
  else Option.none

/-- The keys of the top-level registry `TOPLEVEL_COMMANDS`
(commands/mod.rs:56-67). -/
inductive TLCmd where
  | code
  | head1
  | head2
  | head3
  | abstr
  | metaTitle
  | metaAuthor
  | metaDate
  | metaTags
  | metaDraft
deriving DecidableEq, Repr

/-- `TOPLEVEL_COMMANDS.get((name, namespace))` (commands/mod.rs:56-67). -/
def toplevelLookup (name : String) (ns : Option String) : Option TLCmd :=
  if ns = Option.none then
    if name = "code" then some TLCmd.code
    else if name = "head1" then some TLCmd.head1
    else if name = "head2" then some TLCmd.head2
    else if name = "head3" then some TLCmd.head3
    else if name = "abstract" then some TLCmd.abstr
    else Option.none
  else if ns = some "meta" then
    if name = "title" then some TLCmd.metaTitle
    else if name = "author" then some TLCmd.metaAuthor
    else if name = "date" then some TLCmd.metaDate
    else if name = "tags" then some TLCmd.metaTags
    else if name = "draft" then some TLCmd.metaDraft
    else Option.none
  else Option.none

/-- The raw-text reduction of metadata content (commands/toplevel.rs:39-45):
every element must be `Element::Raw`, otherwise the handler panics
("oops"); the raw texts are concatenated. -/
def metaContent : List PElement → Except EErr String
  | [] => .ok ""
  | PElement.raw t :: rest => (metaContent rest).map (fun s => t ++ s)
  | _ :: _ => .error .metaOops

/-- `str::split(',')` on the character list (document/metadata.rs:32). -/
def splitComma : List Char → List (List Char)
  | [] => [[]]
  | ',' :: rest => [] :: splitComma rest
  | c :: rest =>
    match splitComma rest with
    | [] => [[c]]
    | g :: gs => (c :: g) :: gs

/-- `str::trim` on a character list. -/
def trimChars (l : List Char) : List Char :=
  ((l.dropWhile Char.isWhitespace).reverse.dropWhile Char.isWhitespace).reverse

/-- `Field::from` for `Vec<String>` (document/metadata.rs:31-33): split on
commas with per-item trimming. -/
def keywordsFrom (s : String) : List String :=
  (splitComma s.data).map (fun g => String.mk (trimChars g))

/-! ### Engine evaluation (engine.rs:91-169, commands/mod.rs:69-103)

The mutual recursion of the element walk, the inline dispatcher `run`,
the top-level dispatcher `toplevel_run` and `root_spans` descends into
command content; it is embedded with a shared fuel, decremented at every
recursive call. -/

mutual
/-- `TextProcessor::process_all` (engine.rs:57-59): flat-map the element
walk over a stream. -/
def process_all : Nat → TPKind → List PElement → Except EErr (List Span)
  | 0, _, _ => .error .fuelOut
  | fuel+1, p, els =>
    match els with
    | [] => .ok []
    | el :: rest =>
      match elementWalk fuel p el with
      | .error e => .error e
      | .ok sp =>
        (process_all fuel p rest).map (fun sps => sp ++ sps)

/-- `element::<P>` (engine.rs:91-98): raw text goes through the strategy's
processor, comments vanish, commands are dispatched through the inline
registry via `run`, line breaks become `Span::LineBreak`.  No metadata is
in scope here. -/
def elementWalk : Nat → TPKind → PElement → Except EErr (List Span)
  | 0, _, _ => .error .fuelOut
  | fuel+1, p, el =>
    match el with
    | .raw t => .ok (p.process t)
    | .comment _ => .ok []
    | .command cmd => run fuel cmd
    | .lineBreak => .ok [Span.lineBreak]

/-- `run` (commands/mod.rs:91-103): look the command up in the inline
registry only; a hit calls the handler (commands/inline.rs:9-17), a miss
logs a warning and produces the visible placeholder text span. -/
def run : Nat → PCommand → Except EErr (List Span)
  | 0, _ => .error .fuelOut
  | fuel+1, cmd =>
    match inlineLookup cmd.name cmd.ns with
    | some InlineCmd.code =>
      (process_all fuel .preserveTP cmd.content).map
        (fun inner => [Span.format SpanFormat.code inner])
    | some InlineCmd.strong =>
      (process_all fuel .inlineTP cmd.content).map
        (fun inner => [Span.format SpanFormat.strong inner])
    | Option.none =>
      .ok [Span.text ("[[unknown command " ++ cmd.display ++ "]]")]

/-- `toplevel_run` (commands/mod.rs:69-89) together with the handlers of
commands/toplevel.rs: the top-level registry is consulted first (those
handlers may mutate the metadata), then the inline registry (whose spans
are converted by `From<Span> for RootSpan`), and an unknown command
produces the placeholder — wrapped in a paragraph block when the command
used the begin/end form. -/
def toplevel_run : Nat → Metadata → PCommand → Except EErr (Metadata × List RootSpan)
  | 0, _, _ => .error .fuelOut
  | fuel+1, m, cmd =>
    match toplevelLookup cmd.name cmd.ns with
    | some TLCmd.code =>
      -- commands/toplevel.rs:13-21
      (process_all fuel .preserveTP cmd.content).map (fun inner =>
        if cmd.block then (m, [RootSpan.block BlockFormat.code inner])
        else (m, [RootSpan.format SpanFormat.code inner]))
    | some TLCmd.head1 =>
      -- commands/toplevel.rs:64-67 with LEVEL = 1
      (process_all fuel .inlineTP cmd.content).map (fun inner =>
        (m, [RootSpan.block (BlockFormat.heading 1) inner]))
    | some TLCmd.head2 =>
      (process_all fuel .inlineTP cmd.content).map (fun inner =>
        (m, [RootSpan.block (BlockFormat.heading 2) inner]))
    | some TLCmd.head3 =>
      (process_all fuel .inlineTP cmd.content).map (fun inner =>
        (m, [RootSpan.block (BlockFormat.heading 3) inner]))
    | some TLCmd.abstr =>
      -- commands/toplevel.rs:69-72: re-run the root-span pass on the content.
      rootSpansGo fuel m "" cmd.content
    | some TLCmd.metaTitle =>
      -- commands/mod.rs:17-25 with toplevel.rs:23-49; `Field::from` for
      -- `Option<String>` stores the raw text (metadata.rs:11-13).
      (metaContent cmd.content).map (fun s => ({ m with title := some s }, []))
    | some TLCmd.metaAuthor =>
      (metaContent cmd.content).map (fun s => ({ m with author := some s }, []))
    | some TLCmd.metaDate =>
      (metaContent cmd.content).map (fun s => ({ m with date := some s }, []))
    | some TLCmd.metaTags =>
      -- `Field::from` for `Vec<String>` (metadata.rs:31-33).
      (metaContent cmd.content).map (fun s => ({ m with keywords := keywordsFrom s }, []))
    | some TLCmd.metaDraft =>
      -- `Field::from` for `bool` always sets true (metadata.rs:21-23).
      (metaContent cmd.content).map (fun _ => ({ m with draft := true }, []))
    | Option.none =>
      match inlineLookup cmd.name cmd.ns with
      | some InlineCmd.code =>
        (process_all fuel .preserveTP cmd.content).map (fun inner =>
          (m, [RootSpan.format SpanFormat.code inner]))
      | some InlineCmd.strong =>
        (process_all fuel .inlineTP cmd.content).map (fun inner =>
          (m, [RootSpan.format SpanFormat.strong inner]))
      | Option.none =>
        let span := Span.text ("[[unknown command " ++ cmd.display ++ "]]")
        .ok (m, if cmd.block then [RootSpan.block BlockFormat.paragraph [span]]
                else [spanToRootSpan span])

/-- `root_spans` (engine.rs:100-133).  `acc` is the `text_acc` buffer of
consecutive raw pieces.  A command's result is prepended with the
processed buffer only when both are non-empty (in which case the buffer
is cleared); a line break is pushed without touching the buffer; the
buffer is flushed at end of stream. -/
def rootSpansGo : Nat → Metadata → String → List PElement → Except EErr (Metadata × List RootSpan)
  | 0, _, _, _ => .error .fuelOut
  | fuel+1, m, acc, els =>
    match els with
    | [] => .ok (m, if acc.isEmpty then [] else toplevel_text acc)
    | PElement.raw t :: rest => rootSpansGo fuel m (acc ++ t) rest
    | PElement.comment _ :: rest => rootSpansGo fuel m acc rest
    | PElement.lineBreak :: rest =>
      (rootSpansGo fuel m acc rest).map (fun r => (r.1, RootSpan.lineBreak :: r.2))
    | PElement.command cmd :: rest =>
      match toplevel_run fuel m cmd with
      | .error e => .error e
      | .ok (m1, res) =>
        if res.isEmpty then
          rootSpansGo fuel m1 acc rest
        else if acc.isEmpty then
          (rootSpansGo fuel m1 "" rest).map (fun r => (r.1, res ++ r.2))
        else
          (rootSpansGo fuel m1 "" rest).map
            (fun r => (r.1, toplevel_text acc ++ res ++ r.2))
end

/-- `root_spans` (engine.rs:100): the buffer starts empty. -/
def root_spans (fuel : Nat) (m : Metadata) (s : List PElement) :
    Except EErr (Metadata × List RootSpan) :=
  rootSpansGo fuel m "" s

/-- The in-place text merger of `root` (engine.rs:142-148): pushing a text
run appends to a trailing text span if there is one, otherwise pushes a
fresh text span. -/
def pushText : List Span → String → List Span
  | [], t => [Span.text t]
  | [Span.text prev], t => [Span.text (prev ++ t)]
  | [x], t => [x, Span.text t]
  | x :: xs, t => x :: pushText xs t

/-- The block-assembly fold of `root` (engine.rs:140-168), with the
pending-paragraph buffer threaded explicitly.  A paragraph break flushes
the buffer only when it is non-empty; a command block flushes first and
is then passed through verbatim.  Note that the source has no flush after
the loop: a pending paragraph at end of stream is dropped. -/
def rootLoop : List RootSpan → List Span → List Block
  | [], _ => []
  | RootSpan.text t :: rest, para => rootLoop rest (pushText para t)
  | RootSpan.format f s :: rest, para => rootLoop rest (para ++ [Span.format f s])
  | RootSpan.lineBreak :: rest, para => rootLoop rest (para ++ [Span.lineBreak])
  | RootSpan.paragraphBreak :: rest, para =>
    if para.isEmpty then rootLoop rest para
    else Block.mk BlockFormat.paragraph para :: rootLoop rest []
  | RootSpan.block f s :: rest, para =>
    if para.isEmpty then Block.mk f s :: rootLoop rest []
    else Block.mk BlockFormat.paragraph para :: Block.mk f s :: rootLoop rest []

/-- `root` (engine.rs:135-169). -/
def root (fuel : Nat) (m : Metadata) (s : List PElement) :
    Except EErr (Metadata × List Block) :=
  (root_spans fuel m s).map (fun r => (r.1, rootLoop r.2 []))

/-- `process_stream` (document/mod.rs:39-44): evaluate against a default
metadata record. -/
def process_stream (fuel : Nat) (s : List PElement) : Except EErr Document :=
  (root fuel {} s).map (fun r => ⟨r.2, r.1⟩)

/-! ### HTML emitter (pastex/src/output/html.rs with dolmen/src/lib.rs)

The dolmen builder's `Tag<T>` restricts tag names through one marker type
per HTML tag; the embedding carries the tag name as a string, rendering
exactly as `impl Display for Tag<T>` does.  The emitter nodes are the
renderer `Element` variants of dolmen: tags, escaped text, verbatim raw
HTML, and flat fragments. -/

/-- Renderer element tree (dolmen/src/lib.rs: `Tag`, `Text`, `RawHTML`,
`Fragment`). -/
inductive Node where
  | tag (name : String) (attrs : List (String × String)) (content : List Node)
  | text (s : String)
  | rawHtml (s : String)
  | fragment (children : List Node)
deriving Repr

/-- Modelled from the external `html_escape` crate: its documented
`encode_text` escapes exactly `&` to `&amp;`, `<` to `&lt;` and `>` to
`&gt;` (text-mode escaping; quotes and apostrophes are left unchanged).
This is the function called by `impl Display for Text`
(dolmen/src/lib.rs:62-66). -/
def escTextChar (c : Char) : List Char :=
  if c = '&' then "&amp;".data
  else if c = '<' then "&lt;".data
  else if c = '>' then "&gt;".data
  else [c]

/-- Concatenation of the per-character escapes. -/
def escList : List Char → List Char
  | [] => []
  | c :: rest => escTextChar c ++ escList rest

/-- `html_escape::encode_text`, modelled as above. -/
def encode_text (s : String) : String :=
  String.mk (escList s.data)

/-- One attribute rendering ` name="value"` (dolmen/src/lib.rs:42-44).
Attribute values are NOT escaped. -/
def displayAttrs : List (String × String) → String
  | [] => ""
  | (n, v) :: rest => " " ++ n ++ "=\"" ++ v ++ "\"" ++ displayAttrs rest

mutual
/-- Rendering of an element tree (dolmen/src/lib.rs:38-58 for tags, 62-66
for escaped text, 101-105 for verbatim raw HTML, 83-91 for fragments).
A tag with no children renders in the self-closing form. -/
def displayNode : Nat → Node → String
  | 0, _ => ""
  | fuel+1, Node.tag n a c =>
    "<" ++ n ++ displayAttrs a ++
      (if c.isEmpty then " />" else ">" ++ displayNodes fuel c ++ "</" ++ n ++ ">")
  | _+1, Node.text s => encode_text s
  | _+1, Node.rawHtml s => s
  | fuel+1, Node.fragment cs => displayNodes fuel cs

def displayNodes : Nat → List Node → String
  | 0, _ => ""
  | _+1, [] => ""
  | fuel+1, c :: cs => displayNode fuel c ++ displayNodes fuel cs
end

mutual
/-- `span` (output/html.rs:6-25): the span-to-element mapping.  Formatted
spans wrap their children (rendered as one fragment) in `code`, `strong`
or an anchor whose attributes depend on `blank`; a line break is an empty
`br` tag; `Span::Raw` becomes verbatim raw HTML. -/
def spanNode : Nat → Span → Node
  | 0, _ => Node.fragment []
  | _+1, Span.text t => Node.text t
  | fuel+1, Span.format f xs =>
    let inner := Node.fragment (spanNodes fuel xs)
    match f with
    | SpanFormat.code => Node.tag "code" [] [inner]
    | SpanFormat.strong => Node.tag "strong" [] [inner]
    | SpanFormat.link dest blank =>
      if blank then
        Node.tag "a" [("href", dest), ("target", "_blank"), ("rel", "noopener noreferrer")] [inner]
      else
        Node.tag "a" [("href", dest)] [inner]
  | _+1, Span.lineBreak => Node.tag "br" [] []
  | _+1, Span.raw r => Node.rawHtml r

def spanNodes : Nat → List Span → List Node
  | 0, _ => []
  | _+1, [] => []
  | fuel+1, x :: xs => spanNode fuel x :: spanNodes fuel xs
end

/-- `heading` (output/html.rs:27-35): authored levels 1, 2, 3 emit `h2`,
`h3`, `h4`; any other level hits `unimplemented!()`, modelled as `none`. -/
def heading (level : Nat) (inner : Node) : Option Node :=
  if level = 1 then some (Node.tag "h2" [] [inner])
  else if level = 2 then some (Node.tag "h3" [] [inner])
  else if level = 3 then some (Node.tag "h4" [] [inner])
  else Option.none

/-- `block` (output/html.rs:37-50): paragraphs wrap in `p`, code blocks in
`pre` around a `code` tag with the `code-block` class, headings go through
`heading`, and raw blocks pass the fragment through with no wrapper. -/
def blockNode (fuel : Nat) (b : Block) : Option Node :=
  let inner := Node.fragment (spanNodes fuel b.spans)
  match b.fmt with
  | BlockFormat.paragraph => some (Node.tag "p" [] [inner])
  | BlockFormat.code => some (Node.tag "pre" [] [Node.tag "code" [("class", "code-block")] [inner]])
  | BlockFormat.heading lvl => heading lvl inner
  | BlockFormat.raw => some inner

/-- `output_fragment` (output/html.rs:63-65) as the list of rendered
blocks; `none` as soon as one block is fatal. -/
def outputFragmentNodes (fuel : Nat) : List Block → Option (List Node)
  | [] => some []
  | b :: rest =>
    match blockNode fuel b with
    | Option.none => Option.none
    | some n =>
      match outputFragmentNodes fuel rest with
      | Option.none => Option.none
      | some ns => some (n :: ns)

/-- `output_fragment` (output/html.rs:63-65). -/
def output_fragment (fuel : Nat) (blocks : List Block) : Option Node :=
  (outputFragmentNodes fuel blocks).map Node.fragment

/-- `head` (output/html.rs:52-61): the charset meta tag and, when the
title metadata is set, a `title` tag holding it as a text node (an empty
fragment otherwise). -/
def headFrag (m : Metadata) : Node :=
  Node.fragment
    [ Node.tag "meta" [("charset", "utf-8")] [],
      match m.title with
      | some v => Node.tag "title" [] [Node.text v]
      | Option.none => Node.fragment [] ]

/-- `output_document` (output/html.rs:78-85): the root `html` tag with the
`lang` attribute, a `head` around the metadata fragment and a `body`
around the outline fragment.  The result in the source is a one-element
`Fragment`; the embedding keeps the root tag itself. -/
def output_document (fuel : Nat) (d : Document) : Option Node :=
  (output_fragment fuel d.outline).map (fun body =>
    Node.tag "html" [("lang", "en")]
      [ Node.tag "head" [] [headFrag d.metadata],
        Node.tag "body" [] [body] ])

/-- `HtmlDocument` (dolmen/src/lib.rs:211). -/
structure HtmlDocument where
  root : Node

/-- `impl Display for HtmlDocument` (dolmen/src/lib.rs:213-218): a
`writeln!` of `<!DOCTYPE html>` — hence the doctype line followed by a
newline — and then the root tag's rendering. -/
def HtmlDocument.render (fuel : Nat) (d : HtmlDocument) : String :=
  "<!DOCTYPE html>\n" ++ displayNode fuel d.root

/-- Modelled from the spec: the `to_text` rendering of `output_document`'s
result.  The caller that wraps the produced root tag in dolmen's
`HtmlDocument` and renders it (the spec's public contract
`output_document(document) → HtmlDocument` with `to_text`) is not among
the sources; it is modelled as exactly that wrapping, so that the doctype
prefix comes from the embedded `HtmlDocument` rendering above. -/
def output_document_to_text (fuel : Nat) (d : Document) : Option String :=
  (output_document fuel d).map (fun t => HtmlDocument.render fuel (HtmlDocument.mk t))

/-- Purely executable substring test used to state containment facts about
rendered output. -/
def containsSub (needle hay : List Char) : Bool :=
  if needle.isPrefixOf hay then true
  else
    match hay with
    | [] => needle.isEmpty
    | _ :: rest => containsSub needle rest

/-- The full pipeline on a source string: parse, evaluate, emit, render —
`none` when any stage is fatal.  The fuel bounds are generous in the input
size; every concrete fact proved below computes through them. -/
def pipeline (s : String) : Option String :=
  match document s with
  | .error _ => Option.none
  | .ok stream =>
    match process_stream (4 * s.data.length + 16) stream with
    | .error _ => Option.none
    | .ok doc => output_document_to_text (4 * s.data.length + 64) doc

/-! ### Analysis predicates -/

/-- Whether a span is a text span. -/
def isText : Span → Bool
  | Span.text _ => true
  | _ => false

/-- Whether a span sequence has two adjacent text spans. -/
def hasAdjTexts : List Span → Bool
  | [] => false
  | [_] => false
  | x :: y :: rest => (isText x && isText y) || hasAdjTexts (y :: rest)

/-! ### Concrete inputs referenced by the claims -/

/-- The claim C1 scenario input. -/
def c1Input : String := "\\link[to=https://example.com, blank]\x7bHome\x7d"

/-- The claim C6 scenario input. -/
def c6Input : String := "\\begin\x7bfoo\x7d...\\end\x7bbar\x7d"

/-- The claim C3 scenario input, exactly as the claim states it. -/
def c3ClaimInput : String := "<foo> & bar"

/-- The claim C3 input amended with a terminating paragraph break. -/
def c3AmendedInput : String := "<foo> & bar\n\n"

/-- The stream of a single `\head1` command over the raw text `a b`,
used to exercise the block-assembly merger. -/
def c4Stream : List PElement :=
  [PElement.command (PCommand.mk "head1" Option.none [] [PElement.raw "a b"] false)]

/-! ### Claim C1 -/

/-- Claim C1 (code bug): the spec scenario
`\link[to=https://example.com, blank]{Home}` does not render an anchor.
The parameter reader accepts only bare identifiers, so the `=` in the
parameter list is a fatal parse error; moreover the inline registry of
commands/mod.rs:51-54 does not register `link` at all, so even a
hand-built link command with the claimed parameters evaluates to the
unknown-command placeholder rather than a `Link` span. -/
theorem c1_link_scenario_fails :
    document c1Input = .error .malformed ∧
    inlineLookup "link" Option.none = Option.none ∧
    run 9 (PCommand.mk "link" Option.none
        [("to", ParamValue.text "https://example.com"), ("blank", ParamValue.none)]
        [PElement.raw "Home"] false)
      = .ok [Span.text "[[unknown command link]]"] :=
  ⟨rfl, rfl, rfl⟩

/-! ### Claim C2 -/

/-- Claim C2: rendering the result of `output_document` to text yields the
`<!DOCTYPE html>` line, newline included, directly followed by the
rendered `html` tree.  The doctype line comes from the embedded
`HtmlDocument` rendering (dolmen/src/lib.rs:213-218); the wrapping of the
emitted root tag into an `HtmlDocument` is the spec-modelled `to_text`
glue. -/
theorem c2_doctype_prefix (fuel : Nat) (d : Document) (s : String)
    (h : output_document_to_text fuel d = some s) :
    ∃ t, output_document fuel d = some t ∧
      s = "<!DOCTYPE html>\n" ++ displayNode fuel t := by
  unfold output_document_to_text at h
  cases hod : output_document fuel d with
  | none => rw [hod] at h; simp [Option.map] at h
  | some t =>
    rw [hod] at h
    simp only [Option.map, Option.some.injEq] at h
    exact ⟨t, rfl, h.symm⟩

/-- Witness for C2 at the empty document. -/
theorem c2_doctype_prefix_witness :
    ∃ t, output_document 9 (Document.mk [] {}) = some t ∧
      ("<!DOCTYPE html>\n<html lang=\"en\"><head><meta charset=\"utf-8\" /></head><body></body></html>")
        = "<!DOCTYPE html>\n" ++ displayNode 9 t :=
  c2_doctype_prefix 9 (Document.mk [] {}) _ rfl

/-! ### Claim C3 -/

/-- Counterexample to claim C3 as stated: an apostrophe in a text child is
NOT replaced by an entity (the escape set of the text encoder is `&`, `<`,
`>` only), and the claimed pipeline output for `<foo> & bar` does not even
contain the escaped text, because the engine drops a trailing paragraph
that is not terminated by a paragraph break. -/
theorem c3_counterexample :
    displayNode 1 (Node.text "\x27") = "\x27" ∧
    displayNode 1 (Node.text "\"") = "\"" ∧
    (pipeline c3ClaimInput).map
        (fun s => containsSub ("&lt;foo&gt; &amp; bar").data s.data) = some false :=
  ⟨rfl, rfl, rfl⟩

/-! ### Claim C9 -/

/-- Claim C9: the heading emitter shifts authored levels one down —
`Heading(1)`, `Heading(2)`, `Heading(3)` become `h2`, `h3`, `h4` — and any
other level is fatal (`unimplemented!()` in output/html.rs:32), both for
`heading` itself and through the block emitter. -/
theorem c9_heading_shift :
    (∀ inner, heading 1 inner = some (Node.tag "h2" [] [inner])) ∧
    (∀ inner, heading 2 inner = some (Node.tag "h3" [] [inner])) ∧
    (∀ inner, heading 3 inner = some (Node.tag "h4" [] [inner])) ∧
    (∀ n inner, n ≠ 1 → n ≠ 2 → n ≠ 3 → heading n inner = Option.none) ∧
    (∀ fuel n spans, n ≠ 1 → n ≠ 2 → n ≠ 3 →
      blockNode fuel (Block.mk (BlockFormat.heading n) spans) = Option.none) := by
  refine ⟨fun inner => rfl, fun inner => rfl, fun inner => rfl, ?_, ?_⟩
  · intro n inner h1 h2 h3
    simp [heading, h1, h2, h3]
  · intro fuel n spans h1 h2 h3
    simp [blockNode, heading, h1, h2, h3]

/-- Witness for C9 at level 4. -/
theorem c9_heading_shift_witness :
    heading 4 (Node.fragment []) = Option.none :=
  c9_heading_shift.2.2.2.1 4 (Node.fragment [])
    (by decide) (by decide) (by decide)

/-! ### Claim C10 -/

/-- Claim C10: the dispatcher used inside inline command content consults
only the inline registry — whose keys are exactly `code` and `strong`,
both unnamespaced — and a miss (in particular every `meta:`-namespaced or
heading command) yields the visible `[[unknown command NAME]]` placeholder
text span.  `run` (commands/mod.rs:91-103) receives no reference to the
`Metadata` record, so a nested command cannot change it: the frame
property holds by the very type of the dispatcher. -/
theorem c10_inline_dispatch :
    (∀ fuel cmd, inlineLookup (PCommand.name cmd) (PCommand.ns cmd) = Option.none →
      run (fuel+1) cmd = .ok [Span.text ("[[unknown command " ++ cmd.display ++ "]]")]) ∧
    (∀ name ns, inlineLookup name ns ≠ Option.none →
      (name = "code" ∨ name = "strong") ∧ ns = Option.none) := by
  constructor
  · intro fuel cmd h
    unfold run
    rw [h]
  · intro name ns h
    unfold inlineLookup at h
    split_ifs at h with h1 h2
    · exact ⟨Or.inl h1.1, h1.2⟩
    · exact ⟨Or.inr h2.1, h2.2⟩
    · exact absurd rfl h

/-- Witness for C10: the meta-namespaced `title` command, nested in inline
content, evaluates to the placeholder. -/
theorem c10_inline_dispatch_witness :
    run 1 (PCommand.mk "title" (some "meta") [] [] false)
      = .ok [Span.text "[[unknown command meta:title]]"] :=
  c10_inline_dispatch.1 0 (PCommand.mk "title" (some "meta") [] [] false) rfl

/-! ### Claim C5 — counterexample -/

/-- Counterexample to claim C5 as stated: `{` is not in the parser's
escape set (pastex_parser/src/lib.rs:213-218 recognises only `%`, `\`,
`}` and newline), so the two-character source `\{` is a fatal parse error
rather than a raw `{` element. -/
theorem c5_counterexample :
    document ("\\" ++ "\x7b") = .error .malformed ∧
    document ("\\" ++ "\x7b") ≠ .ok [PElement.raw "\x7b"] := by
  refine ⟨rfl, ?_⟩
  intro h
  rw [show document ("\\" ++ "\x7b") = .error .malformed from rfl] at h
  exact Except.noConfusion h

/-! ### Claim C4 — counterexample -/

/-- Counterexample to claim C4 as stated: a heading block forwarded
through `RootSpan::Block` keeps the inline processor's output, in which
every word and every space filler is its own `Span::Text`; the resulting
block has adjacent text spans. -/
theorem c4_counterexample :
    root 9 {} c4Stream
      = .ok ({}, [Block.mk (BlockFormat.heading 1)
          [Span.text "a", Span.text " ", Span.text "b"]]) ∧
    hasAdjTexts [Span.text "a", Span.text " ", Span.text "b"] = true :=
  ⟨rfl, rfl⟩

/-! ### Paragraph invariants of the block assembly (claims C4 and C8) -/

theorem mem_dropWhile_imp {α : Type} {p : α → Bool} {a : α} :
    ∀ {l : List α}, a ∈ l.dropWhile p → a ∈ l := by
  intro l
  induction l with
  | nil => intro h; exact h
  | cons x xs ih =>
    intro h
    simp only [List.dropWhile] at h
    split at h
    · exact List.mem_cons_of_mem x (ih h)
    · exact h

/-- Every token of the top-level text tokenizer is a paragraph break or a
text run; in particular no `RootSpan::Block` originates from raw text. -/
theorem tlTokens_shape : ∀ (fuel : Nat) (l : List Char) (r : RootSpan),
    r ∈ tlTokens fuel l →
    r = RootSpan.paragraphBreak ∨ ∃ s, r = RootSpan.text s := by
  intro fuel
  induction fuel with
  | zero => intro l r h; exact absurd h (by simp [tlTokens])
  | succ n ih =>
    intro l r h
    unfold tlTokens at h
    split at h
    · exact absurd h (List.not_mem_nil r)
    · rcases List.mem_cons.1 h with h | h
      · exact Or.inl h
      · exact ih _ r h
    · split at h
      · exact absurd h (List.not_mem_nil r)
      · rcases List.mem_cons.1 h with h | h
        · exact Or.inr ⟨_, h⟩
        · exact ih _ r h

/-- The root-span lists in which every paragraph block carries a non-empty
span sequence. -/
def paraOkR (rs : List RootSpan) : Prop :=
  ∀ sp, RootSpan.block BlockFormat.paragraph sp ∈ rs → sp ≠ []

theorem paraOkR_nil : paraOkR [] := by
  intro sp h
  exact absurd h (List.not_mem_nil _)

theorem paraOkR_append {a b : List RootSpan} (ha : paraOkR a) (hb : paraOkR b) :
    paraOkR (a ++ b) := by
  intro sp h
  rcases List.mem_append.1 h with h | h
  · exact ha sp h
  · exact hb sp h

theorem paraOkR_cons_of_ne {r : RootSpan} {b : List RootSpan}
    (hr : ∀ sp, r ≠ RootSpan.block BlockFormat.paragraph sp) (hb : paraOkR b) :
    paraOkR (r :: b) := by
  intro sp h
  rcases List.mem_cons.1 h with h | h
  · exact absurd h.symm (hr sp)
  · exact hb sp h

theorem toplevel_text_paraOk (t : String) : paraOkR (toplevel_text t) := by
  intro sp h
  rcases tlTokens_shape _ _ _ (mem_dropWhile_imp h) with h | ⟨s, h⟩
  · exact absurd h (by simp)
  · exact absurd h (by simp)

/-- Core engine invariant (strong induction on the fuel): every
`RootSpan::Block` with paragraph format produced by the top-level
dispatcher or by the root-span pass carries a non-empty span sequence.
The only source of such a block is the unknown-command recovery, which
wraps the one placeholder span. -/
theorem engine_paraOk : ∀ fuel : Nat,
    (∀ m cmd m' rs, toplevel_run fuel m cmd = .ok (m', rs) → paraOkR rs) ∧
    (∀ m acc els m' rs, rootSpansGo fuel m acc els = .ok (m', rs) → paraOkR rs) := by
  intro fuel
  induction fuel with
  | zero =>
    constructor
    · intro m cmd m' rs h; exact absurd h (by simp [toplevel_run])
    · intro m acc els m' rs h; exact absurd h (by simp [rootSpansGo])
  | succ n ih =>
    obtain ⟨ihT, ihG⟩ := ih
    constructor
    · intro m cmd m' rs h
      unfold toplevel_run at h
      split at h
      -- toplevel code handler: a Code block or a Code format, never a paragraph
      · cases hpa : process_all n .preserveTP cmd.content with
        | error e => rw [hpa] at h; exact absurd h (by simp [Except.map])
        | ok inner =>
          rw [hpa] at h
          simp only [Except.map, Except.ok.injEq] at h
          split at h <;>
          · obtain ⟨h1, h2⟩ := Prod.mk.injEq .. |>.mp h
            subst h2
            intro sp hm
            simp only [List.mem_singleton] at hm
            exact absurd hm (by simp)
      -- three heading handlers: Heading blocks, never a paragraph
      · cases hpa : process_all n .inlineTP cmd.content with
        | error e => rw [hpa] at h; exact absurd h (by simp [Except.map])
        | ok inner =>
          rw [hpa] at h
          simp only [Except.map, Except.ok.injEq, Prod.mk.injEq] at h
          obtain ⟨h1, h2⟩ := h
          subst h2
          intro sp hm
          simp only [List.mem_singleton] at hm
          exact absurd hm (by simp)
      · cases hpa : process_all n .inlineTP cmd.content with
        | error e => rw [hpa] at h; exact absurd h (by simp [Except.map])
        | ok inner =>
          rw [hpa] at h
          simp only [Except.map, Except.ok.injEq, Prod.mk.injEq] at h
          obtain ⟨h1, h2⟩ := h
          subst h2
          intro sp hm
          simp only [List.mem_singleton] at hm
          exact absurd hm (by simp)
      · cases hpa : process_all n .inlineTP cmd.content with
        | error e => rw [hpa] at h; exact absurd h (by simp [Except.map])
        | ok inner =>
          rw [hpa] at h
          simp only [Except.map, Except.ok.injEq, Prod.mk.injEq] at h
          obtain ⟨h1, h2⟩ := h
          subst h2
          intro sp hm
          simp only [List.mem_singleton] at hm
          exact absurd hm (by simp)
      -- abstract: re-runs the root-span pass, induction hypothesis applies
      · exact ihG _ _ _ _ _ h
      -- five metadata handlers: empty result
      · cases hmc : metaContent cmd.content with
        | error e => rw [hmc] at h; exact absurd h (by simp [Except.map])
        | ok s =>
          rw [hmc] at h
          simp only [Except.map, Except.ok.injEq, Prod.mk.injEq] at h
          obtain ⟨h1, h2⟩ := h
          subst h2
          exact paraOkR_nil
      · cases hmc : metaContent cmd.content with
        | error e => rw [hmc] at h; exact absurd h (by simp [Except.map])
        | ok s =>
          rw [hmc] at h
          simp only [Except.map, Except.ok.injEq, Prod.mk.injEq] at h
          obtain ⟨h1, h2⟩ := h
          subst h2
          exact paraOkR_nil
      · cases hmc : metaContent cmd.content with
        | error e => rw [hmc] at h; exact absurd h (by simp [Except.map])
        | ok s =>
          rw [hmc] at h
          simp only [Except.map, Except.ok.injEq, Prod.mk.injEq] at h
          obtain ⟨h1, h2⟩ := h
          subst h2
          exact paraOkR_nil
      · cases hmc : metaContent cmd.content with
        | error e => rw [hmc] at h; exact absurd h (by simp [Except.map])
        | ok s =>
          rw [hmc] at h
          simp only [Except.map, Except.ok.injEq, Prod.mk.injEq] at h
          obtain ⟨h1, h2⟩ := h
          subst h2
          exact paraOkR_nil
      · cases hmc : metaContent cmd.content with
        | error e => rw [hmc] at h; exact absurd h (by simp [Except.map])
        | ok s =>
          rw [hmc] at h
          simp only [Except.map, Except.ok.injEq, Prod.mk.injEq] at h
          obtain ⟨h1, h2⟩ := h
          subst h2
          exact paraOkR_nil
      -- fall-through to the inline registry and the unknown-command recovery
      · split at h
        · cases hpa : process_all n .preserveTP cmd.content with
          | error e => rw [hpa] at h; exact absurd h (by simp [Except.map])
          | ok inner =>
            rw [hpa] at h
            simp only [Except.map, Except.ok.injEq, Prod.mk.injEq] at h
            obtain ⟨h1, h2⟩ := h
            subst h2
            intro sp hm
            simp only [List.mem_singleton] at hm
            exact absurd hm (by simp)
        · cases hpa : process_all n .inlineTP cmd.content with
          | error e => rw [hpa] at h; exact absurd h (by simp [Except.map])
          | ok inner =>
            rw [hpa] at h
            simp only [Except.map, Except.ok.injEq, Prod.mk.injEq] at h
            obtain ⟨h1, h2⟩ := h
            subst h2
            intro sp hm
            simp only [List.mem_singleton] at hm
            exact absurd hm (by simp)
        · simp only [Except.ok.injEq, Prod.mk.injEq] at h
          obtain ⟨h1, h2⟩ := h
          subst h2
          split
          · intro sp hm
            simp only [List.mem_singleton, RootSpan.block.injEq, true_and] at hm
            rw [hm]
            simp
          · intro sp hm
            simp only [spanToRootSpan, List.mem_singleton] at hm
            exact absurd hm (by simp)
    · intro m acc els m' rs h
      cases els with
      | nil =>
        unfold rootSpansGo at h
        simp only [Except.ok.injEq, Prod.mk.injEq] at h
        obtain ⟨h1, h2⟩ := h
        subst h2
        split
        · exact paraOkR_nil
        · exact toplevel_text_paraOk acc
      | cons el rest =>
        cases el with
        | raw t =>
          unfold rootSpansGo at h
          exact ihG _ _ _ _ _ h
        | comment s =>
          unfold rootSpansGo at h
          exact ihG _ _ _ _ _ h
        | lineBreak =>
          have h' : Except.map (fun r => (r.1, RootSpan.lineBreak :: r.2))
              (rootSpansGo n m acc rest) = Except.ok (m', rs) := h
          cases hg : rootSpansGo n m acc rest with
          | error e => rw [hg] at h'; exact absurd h' (by simp [Except.map])
          | ok pr =>
            rw [hg] at h'
            simp only [Except.map, Except.ok.injEq, Prod.mk.injEq] at h'
            obtain ⟨h1, h2⟩ := h'
            subst h2
            exact paraOkR_cons_of_ne (by intro sp; simp) (ihG _ _ _ _ _ hg)
        | command cmd =>
          have h' : (match toplevel_run n m cmd with
              | .error e => (.error e : Except EErr (Metadata × List RootSpan))
              | .ok (m1, res) =>
                if res.isEmpty then rootSpansGo n m1 acc rest
                else if acc.isEmpty then
                  Except.map (fun r => (r.1, res ++ r.2)) (rootSpansGo n m1 "" rest)
                else
                  Except.map (fun r => (r.1, toplevel_text acc ++ res ++ r.2))
                    (rootSpansGo n m1 "" rest))
              = Except.ok (m', rs) := h
          cases htr : toplevel_run n m cmd with
          | error e =>
            rw [htr] at h'
            exact Except.noConfusion h'
          | ok pr =>
            obtain ⟨m1, res⟩ := pr
            rw [htr] at h'
            have h2' : (if res.isEmpty then rootSpansGo n m1 acc rest
                else if acc.isEmpty then
                  Except.map (fun r => (r.1, res ++ r.2)) (rootSpansGo n m1 "" rest)
                else
                  Except.map (fun r => (r.1, toplevel_text acc ++ res ++ r.2))
                    (rootSpansGo n m1 "" rest))
                = Except.ok (m', rs) := h'
            by_cases hres : res.isEmpty
            · rw [if_pos hres] at h2'
              exact ihG _ _ _ _ _ h2'
            · rw [if_neg hres] at h2'
              by_cases hacc : acc.isEmpty
              · rw [if_pos hacc] at h2'
                cases hg : rootSpansGo n m1 "" rest with
                | error e => rw [hg] at h2'; exact absurd h2' (by simp [Except.map])
                | ok pr2 =>
                  rw [hg] at h2'
                  simp only [Except.map, Except.ok.injEq, Prod.mk.injEq] at h2'
                  obtain ⟨h1, h2⟩ := h2'
                  subst h2
                  exact paraOkR_append (ihT _ _ _ _ htr) (ihG _ _ _ _ _ hg)
              · rw [if_neg hacc] at h2'
                cases hg : rootSpansGo n m1 "" rest with
                | error e => rw [hg] at h2'; exact absurd h2' (by simp [Except.map])
                | ok pr2 =>
                  rw [hg] at h2'
                  simp only [Except.map, Except.ok.injEq, Prod.mk.injEq] at h2'
                  obtain ⟨h1, h2⟩ := h2'
                  subst h2
                  exact paraOkR_append
                    (paraOkR_append (toplevel_text_paraOk acc) (ihT _ _ _ _ htr))
                    (ihG _ _ _ _ _ hg)

/-- The block-assembly fold never emits an empty paragraph: a flush is
guarded by the buffer being non-empty, and a forwarded paragraph block is
covered by the invariant on the root spans. -/
theorem rootLoop_paraOk : ∀ (doc : List RootSpan) (para : List Span),
    paraOkR doc →
    ∀ sp, Block.mk BlockFormat.paragraph sp ∈ rootLoop doc para → sp ≠ [] := by
  intro doc
  induction doc with
  | nil => intro para _ sp h; exact absurd h (by simp [rootLoop])
  | cons r rest ih =>
    intro para hdoc sp h
    have hrest : paraOkR rest := fun sp' h' => hdoc sp' (List.mem_cons_of_mem r h')
    cases r with
    | text t => exact ih (pushText para t) hrest sp (by simpa [rootLoop] using h)
    | format f s => exact ih _ hrest sp (by simpa [rootLoop] using h)
    | lineBreak => exact ih _ hrest sp (by simpa [rootLoop] using h)
    | paragraphBreak =>
      by_cases hp : para.isEmpty
      · exact ih para hrest sp (by simpa [rootLoop, hp] using h)
      · have h' : Block.mk BlockFormat.paragraph sp
            ∈ Block.mk BlockFormat.paragraph para :: rootLoop rest [] := by
          simpa [rootLoop, hp] using h
        rcases List.mem_cons.1 h' with h'' | h''
        · simp only [Block.mk.injEq, true_and] at h''
          intro hnil
          rw [hnil] at h''
          rw [← h''] at hp
          exact hp rfl
        · exact ih [] hrest sp h''
    | block f s =>
      by_cases hp : para.isEmpty
      · have h' : Block.mk BlockFormat.paragraph sp
            ∈ Block.mk f s :: rootLoop rest [] := by
          simpa [rootLoop, hp] using h
        rcases List.mem_cons.1 h' with h'' | h''
        · have hf : f = BlockFormat.paragraph := by
            have := congrArg Block.fmt h''
            simpa using this.symm
          have hs : sp = s := by
            have := congrArg Block.spans h''
            simpa using this
          rw [hs]
          exact hdoc s (by rw [← hf]; exact List.mem_cons_self _ _)
        · exact ih [] hrest sp h''
      · have h' : Block.mk BlockFormat.paragraph sp
            ∈ Block.mk BlockFormat.paragraph para :: Block.mk f s :: rootLoop rest [] := by
          simpa [rootLoop, hp] using h
        rcases List.mem_cons.1 h' with h'' | h''
        · simp only [Block.mk.injEq, true_and] at h''
          intro hnil
          rw [hnil] at h''
          rw [← h''] at hp
          exact hp rfl
        · rcases List.mem_cons.1 h'' with h3 | h3
          · have hf : f = BlockFormat.paragraph := by
              have := congrArg Block.fmt h3
              simpa using this.symm
            have hs : sp = s := by
              have := congrArg Block.spans h3
              simpa using this
            rw [hs]
            exact hdoc s (by rw [← hf]; exact List.mem_cons_self _ _)
          · exact ih [] hrest sp h3

/-! ### Claim C8 -/

/-- Claim C8: the root block assembly never emits a paragraph block with
an empty span sequence — a paragraph break with an empty pending buffer
is ignored, flushes only happen on a non-empty buffer (there is in fact
no end-of-stream flush at all in the source), and the only paragraph
block a handler forwards is the unknown-command one-span wrapper. -/
theorem c8_no_empty_paragraph (fuel : Nat) (m : Metadata) (s : List PElement)
    (m' : Metadata) (blocks : List Block) (h : root fuel m s = .ok (m', blocks)) :
    ∀ sp, Block.mk BlockFormat.paragraph sp ∈ blocks → sp ≠ [] := by
  unfold root at h
  cases hrs : root_spans fuel m s with
  | error e => rw [hrs] at h; exact absurd h (by simp [Except.map])
  | ok pr =>
    rw [hrs] at h
    simp only [Except.map, Except.ok.injEq, Prod.mk.injEq] at h
    have hdoc : paraOkR pr.2 :=
      (engine_paraOk fuel).2 m "" s pr.1 pr.2 (by
        have : root_spans fuel m s = rootSpansGo fuel m "" s := rfl
        rw [← this, hrs])
    rw [← h.2]
    exact rootLoop_paraOk pr.2 [] hdoc

/-- Witness for C8 on a concrete two-paragraph source (the trailing
paragraph is dropped by the source's missing final flush; the flushed one
is non-empty). -/
theorem c8_no_empty_paragraph_witness :
    ([Span.text "Hi"] : List Span) ≠ [] :=
  c8_no_empty_paragraph 9 {} [PElement.raw "Hi\n\nBye"] {}
    [Block.mk BlockFormat.paragraph [Span.text "Hi"]]
    rfl [Span.text "Hi"] (List.mem_singleton.mpr rfl)

/-! ### Claim C4 — merger lemmas and amended claim -/

theorem pushText_cons_cons (x y : Span) (ys : List Span) (t : String) :
    pushText (x :: y :: ys) t = x :: pushText (y :: ys) t := by
  cases x <;> rfl

theorem pushText_head (y : Span) (xs : List Span) (t : String) :
    ∃ z rest, pushText (y :: xs) t = z :: rest ∧ isText z = isText y := by
  cases xs with
  | nil =>
    cases y with
    | text prev => exact ⟨Span.text (prev ++ t), [], rfl, rfl⟩
    | format f s => exact ⟨Span.format f s, [Span.text t], rfl, rfl⟩
    | lineBreak => exact ⟨Span.lineBreak, [Span.text t], rfl, rfl⟩
    | raw r => exact ⟨Span.raw r, [Span.text t], rfl, rfl⟩
  | cons z zs => exact ⟨y, pushText (z :: zs) t, pushText_cons_cons y z zs t, rfl⟩

/-- The in-place merger preserves the no-adjacent-texts invariant of the
pending paragraph buffer. -/
theorem pushText_noAdj : ∀ (para : List Span) (t : String),
    hasAdjTexts para = false → hasAdjTexts (pushText para t) = false := by
  intro para
  induction para with
  | nil => intro t _; rfl
  | cons y ys ih =>
    intro t h
    cases ys with
    | nil =>
      cases y with
      | text prev => rfl
      | format f s => rfl
      | lineBreak => rfl
      | raw r => rfl
    | cons z zs =>
      rw [pushText_cons_cons]
      obtain ⟨w, rest, hw, hwt⟩ := pushText_head z zs t
      simp only [hasAdjTexts, Bool.or_eq_false_iff] at h
      rw [hw]
      simp only [hasAdjTexts, Bool.or_eq_false_iff]
      refine ⟨by rw [hwt]; exact h.1, ?_⟩
      rw [← hw]
      exact ih t h.2

/-- Appending a non-text span preserves the no-adjacent-texts invariant. -/
theorem hasAdjTexts_append_nontext : ∀ (para : List Span) (x : Span),
    hasAdjTexts para = false → isText x = false →
    hasAdjTexts (para ++ [x]) = false := by
  intro para
  induction para with
  | nil => intro x _ _; rfl
  | cons y ys ih =>
    intro x h hx
    cases ys with
    | nil =>
      simp only [List.cons_append, List.nil_append, hasAdjTexts, Bool.or_eq_false_iff]
      refine ⟨by rw [hx]; exact Bool.and_false _, ?_⟩
      trivial
    | cons z zs =>
      simp only [List.cons_append] at *
      simp only [hasAdjTexts, Bool.or_eq_false_iff] at h ⊢
      exact ⟨h.1, ih x h.2 hx⟩

/-- The merger guarantee of the block-assembly fold: every produced block
either has no two adjacent text spans, or is a block forwarded verbatim
from the root-span stream (`RootSpan::Block`). -/
theorem rootLoop_merger : ∀ (doc : List RootSpan) (para : List Span),
    hasAdjTexts para = false →
    ∀ b ∈ rootLoop doc para,
      hasAdjTexts b.spans = false ∨ RootSpan.block b.fmt b.spans ∈ doc := by
  intro doc
  induction doc with
  | nil => intro para _ b hb; exact absurd hb (by simp [rootLoop])
  | cons r rest ih =>
    intro para hp b hb
    cases r with
    | text t =>
      rcases ih (pushText para t) (pushText_noAdj para t hp) b
          (by simpa [rootLoop] using hb) with h | h
      · exact Or.inl h
      · exact Or.inr (List.mem_cons_of_mem _ h)
    | format f s =>
      rcases ih _ (hasAdjTexts_append_nontext para (Span.format f s) hp rfl) b
          (by simpa [rootLoop] using hb) with h | h
      · exact Or.inl h
      · exact Or.inr (List.mem_cons_of_mem _ h)
    | lineBreak =>
      rcases ih _ (hasAdjTexts_append_nontext para Span.lineBreak hp rfl) b
          (by simpa [rootLoop] using hb) with h | h
      · exact Or.inl h
      · exact Or.inr (List.mem_cons_of_mem _ h)
    | paragraphBreak =>
      by_cases he : para.isEmpty
      · rcases ih para hp b (by simpa [rootLoop, he] using hb) with h | h
        · exact Or.inl h
        · exact Or.inr (List.mem_cons_of_mem _ h)
      · have hb' : b ∈ Block.mk BlockFormat.paragraph para :: rootLoop rest [] := by
          simpa [rootLoop, he] using hb
        rcases List.mem_cons.1 hb' with h | h
        · rw [h]; exact Or.inl hp
        · rcases ih [] rfl b h with h' | h'
          · exact Or.inl h'
          · exact Or.inr (List.mem_cons_of_mem _ h')
    | block f s =>
      by_cases he : para.isEmpty
      · have hb' : b ∈ Block.mk f s :: rootLoop rest [] := by
          simpa [rootLoop, he] using hb
        rcases List.mem_cons.1 hb' with h | h
        · rw [h]; exact Or.inr (List.mem_cons_self _ _)
        · rcases ih [] rfl b h with h' | h'
          · exact Or.inl h'
          · exact Or.inr (List.mem_cons_of_mem _ h')
      · have hb' : b ∈ Block.mk BlockFormat.paragraph para
            :: Block.mk f s :: rootLoop rest [] := by
          simpa [rootLoop, he] using hb
        rcases List.mem_cons.1 hb' with h | h
        · rw [h]; exact Or.inl hp
        · rcases List.mem_cons.1 h with h3 | h3
          · rw [h3]; exact Or.inr (List.mem_cons_self _ _)
          · rcases ih [] rfl b h3 with h' | h'
            · exact Or.inl h'
            · exact Or.inr (List.mem_cons_of_mem _ h')

/-- Claim C4, amended: in every block assembled by `root` from the pending
paragraph buffer no two adjacent spans are text spans (the in-place merger
guarantee); blocks forwarded verbatim from a handler's `RootSpan::Block`
are exempt and may contain adjacent text spans, as the heading
counterexample shows. -/
theorem c4_amended (fuel : Nat) (m : Metadata) (s : List PElement)
    (m' : Metadata) (doc : List RootSpan)
    (h : root_spans fuel m s = .ok (m', doc)) :
    root fuel m s = .ok (m', rootLoop doc []) ∧
    ∀ b ∈ rootLoop doc [],
      hasAdjTexts b.spans = false ∨ RootSpan.block b.fmt b.spans ∈ doc := by
  constructor
  · unfold root
    rw [h]
    rfl
  · exact rootLoop_merger doc [] rfl

/-- Witness for the amended C4 on the heading stream. -/
theorem c4_amended_witness :
    root 9 {} c4Stream
      = .ok ({}, rootLoop
          [RootSpan.block (BlockFormat.heading 1)
            [Span.text "a", Span.text " ", Span.text "b"]] []) ∧
    ∀ b ∈ rootLoop
        [RootSpan.block (BlockFormat.heading 1)
          [Span.text "a", Span.text " ", Span.text "b"]] [],
      hasAdjTexts b.spans = false ∨
        RootSpan.block b.fmt b.spans ∈
          [RootSpan.block (BlockFormat.heading 1)
            [Span.text "a", Span.text " ", Span.text "b"]] :=
  c4_amended 9 {} c4Stream {}
    [RootSpan.block (BlockFormat.heading 1)
      [Span.text "a", Span.text " ", Span.text "b"]] rfl

/-! ### Claim C7 — counterexample -/

/-- Counterexample to claim C7 as stated: the maximal whitespace run
consisting of a space followed by a newline is not collapsed to a single
space — each component contributes its own space, so `a \nb` becomes the
text `a  b` with two spaces. -/
theorem c7_counterexample :
    toplevel_text ("a \nb") = [RootSpan.text ("a  b")] ∧
    toplevel_text ("a \nb") ≠ [RootSpan.text ("a b")] := by
  refine ⟨rfl, ?_⟩
  intro h
  rw [show toplevel_text ("a \nb") = [RootSpan.text ("a  b")] from rfl] at h
  simp only [List.cons.injEq, RootSpan.text.injEq, and_true] at h
  exact absurd h (by decide)

/-! ### Claim C7 — amended claim

The amended description of the top-level processor reads: scanning left
to right, a maximal run of two or more newlines yields one
paragraph-break marker; a single newline yields one space; a maximal run
of non-newline whitespace yields one space; a maximal run of
non-whitespace characters yields itself; consecutive non-break pieces
merge into one text span; and paragraph breaks at the start of the
result are dropped.  `specAtoms`/`coalesce`/`toplevel_text_spec` below
follow these words; the equivalence theorem relates them to the embedded
`toplevel_text`. -/

/-- One atom of the amended description: a paragraph break, or a piece of
text (a space standing for a collapsed whitespace component, or a word). -/
inductive TAtom where
  | pb
  | chunk (s : List Char)

/-- The scanner of the amended description, one atom per step. -/
def specAtoms : Nat → List Char → List TAtom
  | 0, _ => []
  | fuel+1, l =>
    match l with
    | [] => []
    | c :: rest =>
      if c = '\n' then
        if rest.head? = some '\n' then
          TAtom.pb :: specAtoms fuel (rest.dropWhile (fun d => d = '\n'))
        else TAtom.chunk [' '] :: specAtoms fuel rest
      else if c.isWhitespace then
        TAtom.chunk [' ']
          :: specAtoms fuel ((c :: rest).dropWhile (fun d => !(d = '\n') && d.isWhitespace))
      else
        TAtom.chunk (c :: rest.takeWhile (fun d => !d.isWhitespace))
          :: specAtoms fuel (rest.dropWhile (fun d => !d.isWhitespace))

theorem textItem_cons_eq (c : Char) (rest : List Char) :
    textItem (c :: rest)
      = (if !c.isWhitespace then
          some (c :: rest.takeWhile (fun d => !d.isWhitespace),
                rest.dropWhile (fun d => !d.isWhitespace))
        else if c = '\n' then
          (if rest.head? = some '\n' then Option.none
           else some ([' '], rest))
        else
          some ([' '], (c :: rest).dropWhile (fun d => !(d = '\n') && d.isWhitespace))) := rfl

theorem specAtoms_cons_eq (fuel : Nat) (c : Char) (rest : List Char) :
    specAtoms (fuel+1) (c :: rest)
      = (if c = '\n' then
          (if rest.head? = some '\n' then
            TAtom.pb :: specAtoms fuel (rest.dropWhile (fun d => d = '\n'))
          else TAtom.chunk [' '] :: specAtoms fuel rest)
        else if c.isWhitespace then
          TAtom.chunk [' ']
            :: specAtoms fuel ((c :: rest).dropWhile (fun d => !(d = '\n') && d.isWhitespace))
        else
          TAtom.chunk (c :: rest.takeWhile (fun d => !d.isWhitespace))
            :: specAtoms fuel (rest.dropWhile (fun d => !d.isWhitespace))) := rfl

/-- Merge consecutive chunk atoms into single text spans. -/
def coalesce : List TAtom → List RootSpan
  | [] => []
  | TAtom.pb :: rest => RootSpan.paragraphBreak :: coalesce rest
  | TAtom.chunk s :: rest =>
    match coalesce rest with
    | RootSpan.text t :: more => RootSpan.text (String.mk s ++ t) :: more
    | other => RootSpan.text (String.mk s) :: other

/-- The amended top-level processor, following the claim's words. -/
def toplevel_text_spec (t : String) : List RootSpan :=
  (coalesce (specAtoms (t.data.length + 1) t.data)).dropWhile isPBreak

theorem dwLen {p : Char → Bool} {l : List Char} : (l.dropWhile p).length ≤ l.length :=
  (List.dropWhile_sublist p).length_le

theorem stringMkAppend (a b : List Char) :
    String.mk a ++ String.mk b = String.mk (a ++ b) := rfl

/-- A successful text item consumes at least one character and yields a
non-empty piece. -/
theorem textItem_consume : ∀ (l p1 l₁ : List Char), textItem l = some (p1, l₁) →
    l₁.length < l.length ∧ p1 ≠ [] := by
  intro l p1 l₁ h
  cases l with
  | nil =>
    exact Option.noConfusion
      (show (Option.none : Option (List Char × List Char)) = some (p1, l₁) from h)
  | cons c rest =>
    rw [textItem_cons_eq] at h
    by_cases hwb : (!c.isWhitespace) = true
    · rw [if_pos hwb] at h
      simp only [Option.some.injEq, Prod.mk.injEq] at h
      constructor
      · rw [← h.2]
        exact Nat.lt_succ_of_le dwLen
      · rw [← h.1]; simp
    · rw [if_neg hwb] at h
      have hw : c.isWhitespace = true := by
        cases hcb : c.isWhitespace with
        | true => rfl
        | false => exact absurd (by rw [hcb]; rfl) hwb
      by_cases hn : c = '\n'
      · rw [if_pos hn] at h
        by_cases hh : rest.head? = some '\n'
        · rw [if_pos hh] at h
          exact Option.noConfusion h
        · rw [if_neg hh] at h
          simp only [Option.some.injEq, Prod.mk.injEq] at h
          constructor
          · rw [← h.2]; simp
          · rw [← h.1]; simp
      · rw [if_neg hn] at h
        simp only [Option.some.injEq, Prod.mk.injEq] at h
        have hcw : (!decide (c = '\n') && c.isWhitespace) = true := by
          simp only [Bool.and_eq_true, Bool.not_eq_true', decide_eq_false_iff_not]
          exact ⟨hn, hw⟩
        constructor
        · rw [← h.2, List.dropWhile_cons, if_pos hcw]
          exact Nat.lt_succ_of_le dwLen
        · rw [← h.1]; simp

/-- Characterisation of text-item failure: end of input or a paragraph
break. -/
theorem textItem_none_cases : ∀ l, textItem l = Option.none →
    l = [] ∨ ∃ r, l = '\n' :: '\n' :: r := by
  intro l h
  cases l with
  | nil => exact Or.inl rfl
  | cons c rest =>
    rw [textItem_cons_eq] at h
    by_cases hwb : (!c.isWhitespace) = true
    · rw [if_pos hwb] at h
      exact Option.noConfusion h
    · rw [if_neg hwb] at h
      by_cases hn : c = '\n'
      · rw [if_pos hn] at h
        by_cases hh : rest.head? = some '\n'
        · subst hn
          cases rest with
          | nil => exact absurd hh (by simp)
          | cons c2 r2 =>
            simp only [List.head?, Option.some.injEq] at hh
            subst hh
            exact Or.inr ⟨r2, rfl⟩
        · rw [if_neg hh] at h
          exact Option.noConfusion h
      · rw [if_neg hn] at h
        exact Option.noConfusion h

/-- A successful text item is exactly the first atom of the amended
scanner. -/
theorem specAtoms_step : ∀ (l p1 l₁ : List Char), textItem l = some (p1, l₁) →
    ∀ fuel, specAtoms (fuel+1) l = TAtom.chunk p1 :: specAtoms fuel l₁ := by
  intro l p1 l₁ h fuel
  cases l with
  | nil =>
    exact Option.noConfusion
      (show (Option.none : Option (List Char × List Char)) = some (p1, l₁) from h)
  | cons c rest =>
    rw [textItem_cons_eq] at h
    rw [specAtoms_cons_eq]
    by_cases hw : c.isWhitespace
    · rw [if_neg (by simp [hw])] at h
      by_cases hn : c = '\n'
      · rw [if_pos hn] at h
        rw [if_pos hn]
        by_cases hh : rest.head? = some '\n'
        · rw [if_pos hh] at h
          exact Option.noConfusion h
        · rw [if_neg hh] at h
          rw [if_neg hh]
          simp only [Option.some.injEq, Prod.mk.injEq] at h
          rw [h.1, h.2]
      · rw [if_neg hn] at h
        simp only [Option.some.injEq, Prod.mk.injEq] at h
        rw [if_neg hn, if_pos hw, h.1, h.2]
    · have hn : ¬ c = '\n' := by
        intro hh
        rw [hh] at hw
        exact hw (by decide)
      have hwb : (!c.isWhitespace) = true := by
        cases hcb : c.isWhitespace with
        | true => exact absurd hcb hw
        | false => rfl
      rw [if_pos hwb] at h
      simp only [Option.some.injEq, Prod.mk.injEq] at h
      rw [if_neg hn, if_neg hw, h.1, h.2]

/-- Fuel irrelevance for the amended scanner. -/
theorem specAtoms_irrel : ∀ (n : Nat) (l : List Char) (f1 f2 : Nat),
    l.length ≤ n → l.length < f1 → l.length < f2 →
    specAtoms f1 l = specAtoms f2 l := by
  intro n
  induction n with
  | zero =>
    intro l f1 f2 hl h1 h2
    have : l = [] := List.length_eq_zero.mp (Nat.le_zero.mp hl)
    subst this
    cases f1 with
    | zero => omega
    | succ g1 =>
      cases f2 with
      | zero => omega
      | succ g2 => rfl
  | succ n ih =>
    intro l f1 f2 hl h1 h2
    cases f1 with
    | zero => omega
    | succ g1 =>
      cases f2 with
      | zero => omega
      | succ g2 =>
        cases hti : textItem l with
        | none =>
          rcases textItem_none_cases l hti with h | ⟨r, h⟩
          · subst h; rfl
          · subst h
            show TAtom.pb :: specAtoms g1 (r.dropWhile (fun c => c = '\n'))
              = TAtom.pb :: specAtoms g2 (r.dropWhile (fun c => c = '\n'))
            have hlen : ((r.dropWhile (fun c => c = '\n'))).length ≤ r.length := dwLen
            have hrl : r.length + 2 ≤ n + 1 := by simpa using hl
            have hg1 : r.length + 1 < g1 := by simpa using h1
            have hg2 : r.length + 1 < g2 := by simpa using h2
            rw [ih (r.dropWhile (fun c => c = '\n')) g1 g2 (by omega) (by omega) (by omega)]
        | some pr =>
          obtain ⟨p1, l₁⟩ := pr
          rw [specAtoms_step l p1 l₁ hti g1, specAtoms_step l p1 l₁ hti g2]
          have hcons := textItem_consume l p1 l₁ hti
          rw [ih l₁ g1 g2 (by omega) (by omega) (by omega)]

/-- A failed text item makes the source text run empty. -/
theorem tlText_none : ∀ (l : List Char), textItem l = Option.none →
    ∀ fuel, tlText fuel l = ([], l) := by
  intro l h fuel
  cases fuel with
  | zero => rfl
  | succ g =>
    unfold tlText
    rw [h]

/-- A successful text item prepends its piece to the run. -/
theorem tlText_step : ∀ (l p1 l₁ : List Char), textItem l = some (p1, l₁) →
    ∀ fuel, tlText (fuel+1) l = (p1 ++ (tlText fuel l₁).1, (tlText fuel l₁).2) := by
  intro l p1 l₁ h fuel
  have key : tlText (fuel+1) l
      = (match textItem l with
         | Option.none => ([], l)
         | some (piece, rest) => (piece ++ (tlText fuel rest).1, (tlText fuel rest).2)) := rfl
  rw [key, h]

/-- The remainder of a text run is no longer than the input. -/
theorem tlText_rest_le : ∀ (fuel : Nat) (l : List Char),
    (tlText fuel l).2.length ≤ l.length := by
  intro fuel
  induction fuel with
  | zero => intro l; exact Nat.le_refl _
  | succ g ih =>
    intro l
    cases hti : textItem l with
    | none => rw [tlText_none l hti]
    | some pr =>
      obtain ⟨p1, l₁⟩ := pr
      rw [tlText_step l p1 l₁ hti g]
      have := textItem_consume l p1 l₁ hti
      exact Nat.le_trans (ih l₁) (Nat.le_of_lt this.1)

/-- Fuel irrelevance of the text run. -/
theorem tlText_irrel : ∀ (n : Nat) (l : List Char) (f1 f2 : Nat),
    l.length ≤ n → l.length < f1 → l.length < f2 →
    tlText f1 l = tlText f2 l := by
  intro n
  induction n with
  | zero =>
    intro l f1 f2 hl _ _
    have : l = [] := List.length_eq_zero.mp (Nat.le_zero.mp hl)
    subst this
    rw [tlText_none [] (by rfl) f1, tlText_none [] (by rfl) f2]
  | succ n ih =>
    intro l f1 f2 hl h1 h2
    cases hti : textItem l with
    | none => rw [tlText_none l hti, tlText_none l hti]
    | some pr =>
      obtain ⟨p1, l₁⟩ := pr
      cases f1 with
      | zero => omega
      | succ g1 =>
        cases f2 with
        | zero => omega
        | succ g2 =>
          rw [tlText_step l p1 l₁ hti g1, tlText_step l p1 l₁ hti g2]
          have hcons := textItem_consume l p1 l₁ hti
          rw [ih l₁ g1 g2 (by omega) (by omega) (by omega)]

/-- With adequate fuel, the text run ends at a failed item. -/
theorem tlText_final : ∀ (fuel : Nat) (l : List Char), l.length < fuel →
    textItem (tlText fuel l).2 = Option.none := by
  intro fuel
  induction fuel with
  | zero => intro l h; omega
  | succ g ih =>
    intro l h
    cases hti : textItem l with
    | none => rw [tlText_none l hti]; exact hti
    | some pr =>
      obtain ⟨p1, l₁⟩ := pr
      rw [tlText_step l p1 l₁ hti g]
      have hcons := textItem_consume l p1 l₁ hti
      exact ih l₁ (by omega)

/-- The coalesced atom list of a non-run position is empty or starts with
a paragraph break. -/
theorem coalesce_atoms_of_none : ∀ (l : List Char) (fuel : Nat),
    textItem l = Option.none →
    coalesce (specAtoms fuel l) = [] ∨
    ∃ tail, coalesce (specAtoms fuel l) = RootSpan.paragraphBreak :: tail := by
  intro l fuel h
  rcases textItem_none_cases l h with h | ⟨r, h⟩
  · subst h
    cases fuel with
    | zero => exact Or.inl rfl
    | succ g => exact Or.inl rfl
  · subst h
    cases fuel with
    | zero => exact Or.inl rfl
    | succ g =>
      exact Or.inr ⟨_, rfl⟩

/-- Prepending a chunk to a non-text-headed coalesced list starts a fresh
text span. -/
theorem coalesce_chunk_key (p1 : List Char) (atoms : List TAtom) :
    coalesce (TAtom.chunk p1 :: atoms)
      = (match coalesce atoms with
         | RootSpan.text t :: more => RootSpan.text (String.mk p1 ++ t) :: more
         | other => RootSpan.text (String.mk p1) :: other) := rfl

theorem coalesce_chunk_fresh (p1 : List Char) (atoms : List TAtom)
    (h : coalesce atoms = [] ∨ ∃ tail, coalesce atoms = RootSpan.paragraphBreak :: tail) :
    coalesce (TAtom.chunk p1 :: atoms)
      = RootSpan.text (String.mk p1) :: coalesce atoms := by
  rcases h with h | ⟨tail, h⟩ <;>
  · rw [coalesce_chunk_key, h]

/-- Prepending a chunk to a text-headed coalesced list merges into the
text span. -/
theorem coalesce_chunk_text (p1 : List Char) (atoms : List TAtom) (t : String)
    (more : List RootSpan) (h : coalesce atoms = RootSpan.text t :: more) :
    coalesce (TAtom.chunk p1 :: atoms)
      = RootSpan.text (String.mk p1 ++ t) :: more := by
  rw [coalesce_chunk_key, h]

/-- Core correspondence: at a run position, the coalesced spec atoms are
the full source text run followed by the coalesced atoms of the
remainder. -/
theorem coalesce_run : ∀ (n : Nat) (l : List Char), l.length ≤ n →
    ∀ (p1 l₁ : List Char), textItem l = some (p1, l₁) →
    coalesce (specAtoms (l.length + 1) l)
      = RootSpan.text (String.mk (tlText (l.length + 1) l).1)
        :: coalesce (specAtoms ((tlText (l.length + 1) l).2.length + 1)
            (tlText (l.length + 1) l).2) := by
  intro n
  induction n with
  | zero =>
    intro l hl p1 l₁ h
    have : l = [] := List.length_eq_zero.mp (Nat.le_zero.mp hl)
    subst this
    exact absurd h (by simp [textItem])
  | succ n ih =>
    intro l hl p1 l₁ h
    have hcons := textItem_consume l p1 l₁ h
    rw [specAtoms_step l p1 l₁ h l.length]
    rw [tlText_step l p1 l₁ h l.length]
    have hIrrA : specAtoms l.length l₁ = specAtoms (l₁.length + 1) l₁ :=
      specAtoms_irrel l₁.length l₁ l.length (l₁.length + 1) (Nat.le_refl _)
        (by omega) (by omega)
    have hIrrT : tlText l.length l₁ = tlText (l₁.length + 1) l₁ :=
      tlText_irrel l₁.length l₁ l.length (l₁.length + 1) (Nat.le_refl _)
        (by omega) (by omega)
    rw [hIrrA, hIrrT]
    cases hti2 : textItem l₁ with
    | none =>
      rw [tlText_none l₁ hti2]
      simp only [List.append_nil]
      rw [coalesce_chunk_fresh p1 (specAtoms (l₁.length + 1) l₁)
        (coalesce_atoms_of_none l₁ (l₁.length + 1) hti2)]
    | some pr2 =>
      obtain ⟨q, l₂⟩ := pr2
      have hrec := ih l₁ (by omega) q l₂ hti2
      rw [coalesce_chunk_text p1 (specAtoms (l₁.length + 1) l₁) _ _ hrec]
      rw [stringMkAppend]

/-- Fuel irrelevance of the token pass. -/
theorem tlTokens_irrel : ∀ (n : Nat) (l : List Char) (f1 f2 : Nat),
    l.length ≤ n → l.length < f1 → l.length < f2 →
    tlTokens f1 l = tlTokens f2 l := by
  intro n
  induction n with
  | zero =>
    intro l f1 f2 hl h1 h2
    have : l = [] := List.length_eq_zero.mp (Nat.le_zero.mp hl)
    subst this
    cases f1 with
    | zero => omega
    | succ g1 =>
      cases f2 with
      | zero => omega
      | succ g2 => rfl
  | succ n ih =>
    intro l f1 f2 hl h1 h2
    cases f1 with
    | zero => omega
    | succ g1 =>
      cases f2 with
      | zero => omega
      | succ g2 =>
        unfold tlTokens
        split
        · rfl
        · rename_i rest
          have hL : ('\n' :: '\n' :: rest).length = rest.length + 2 := by simp
          have hlen : ((rest.dropWhile (fun c => c = '\n'))).length ≤ rest.length := dwLen
          rw [ih (rest.dropWhile (fun c => c = '\n')) g1 g2 (by omega) (by omega) (by omega)]
        · split
          · rfl
          · rename_i hne
            have hlt : (tlText (l.length + 1) l).2.length < l.length := by
              cases hti : textItem l with
              | none =>
                exfalso
                rw [tlText_none l hti (l.length + 1)] at hne
                exact hne rfl
              | some pr =>
                obtain ⟨p1, l₁⟩ := pr
                have hc := textItem_consume l p1 l₁ hti
                rw [tlText_step l p1 l₁ hti l.length]
                exact Nat.lt_of_le_of_lt (tlText_rest_le _ _) hc.1
            rw [ih ((tlText (l.length + 1) l).2) g1 g2 (by omega) (by omega) (by omega)]

/-- The token pass agrees with the coalesced atoms of the amended
scanner. -/
theorem tlTokens_coalesce : ∀ (n : Nat) (l : List Char), l.length ≤ n →
    tlTokens (l.length + 1) l = coalesce (specAtoms (l.length + 1) l) := by
  intro n
  induction n with
  | zero =>
    intro l hl
    have : l = [] := List.length_eq_zero.mp (Nat.le_zero.mp hl)
    subst this
    rfl
  | succ n ih =>
    intro l hl
    cases hti : textItem l with
    | none =>
      rcases textItem_none_cases l hti with h | ⟨r, h⟩
      · subst h; rfl
      · subst h
        have hrl : r.length + 2 ≤ n + 1 := by simpa using hl
        have hD : ((r.dropWhile (fun c => c = '\n'))).length ≤ r.length := dwLen
        have step : tlTokens (('\n' :: '\n' :: r).length + 1) ('\n' :: '\n' :: r)
            = RootSpan.paragraphBreak
              :: tlTokens (r.length + 2) (r.dropWhile (fun c => c = '\n')) := rfl
        have stepS : coalesce (specAtoms (('\n' :: '\n' :: r).length + 1) ('\n' :: '\n' :: r))
            = RootSpan.paragraphBreak
              :: coalesce (specAtoms (r.length + 2) (r.dropWhile (fun c => c = '\n'))) := rfl
        rw [step, stepS]
        congr 1
        rw [tlTokens_irrel ((r.dropWhile (fun c => c = '\n'))).length _
          (r.length + 2) (((r.dropWhile (fun c => c = '\n'))).length + 1)
          (Nat.le_refl _) (by omega) (by omega)]
        rw [specAtoms_irrel ((r.dropWhile (fun c => c = '\n'))).length _
          (r.length + 2) (((r.dropWhile (fun c => c = '\n'))).length + 1)
          (Nat.le_refl _) (by omega) (by omega)]
        exact ih _ (by omega)
    | some pr =>
      obtain ⟨p1, l₁⟩ := pr
      have hcons := textItem_consume l p1 l₁ hti
      have hrun := coalesce_run l.length l (Nat.le_refl _) p1 l₁ hti
      rw [hrun]
      unfold tlTokens
      split
      · exact Option.noConfusion
          (show (Option.none : Option (List Char × List Char)) = some (p1, l₁) from hti)
      · exact Option.noConfusion
          (show (Option.none : Option (List Char × List Char)) = some (p1, l₁) from hti)
      · have hne : (tlText (l.length + 1) l).1.isEmpty = false := by
          rw [tlText_step l p1 l₁ hti l.length]
          cases p1 with
          | nil => exact absurd rfl hcons.2
          | cons a as => rfl
        rw [if_neg (by rw [hne]; exact Bool.false_ne_true)]
        congr 1
        have hR : (tlText (l.length + 1) l).2.length ≤ l₁.length := by
          rw [tlText_step l p1 l₁ hti l.length]
          exact tlText_rest_le l.length l₁
        rw [tlTokens_irrel (tlText (l.length + 1) l).2.length _
          l.length ((tlText (l.length + 1) l).2.length + 1)
          (Nat.le_refl _) (by omega) (by omega)]
        exact ih _ (by omega)

/-- Claim C7, amended: the top-level text processor is exactly the
following description — every maximal run of two or more consecutive
newlines becomes a single paragraph-break marker; each single newline and
each maximal run of non-newline whitespace becomes one space (so a mixed
run such as space-then-newline yields one space per component, not a
single space); maximal non-whitespace runs are kept; consecutive
non-break pieces merge into one text span; and paragraph breaks at the
start of the output are dropped. -/
theorem c7_amended (t : String) : toplevel_text t = toplevel_text_spec t := by
  unfold toplevel_text toplevel_text_spec
  rw [tlTokens_coalesce t.data.length t.data (Nat.le_refl _)]

/-- Neither `<` nor `>` survives the text escape. -/
theorem escList_no_raw_angle : ∀ (l : List Char) (x : Char),
    (x = '<' ∨ x = '>') → x ∉ escList l := by
  intro l
  induction l with
  | nil => intro x _ h; exact absurd h (List.not_mem_nil x)
  | cons c rest ih =>
    intro x hx h
    rcases List.mem_append.1 (by simpa [escList] using h) with h | h
    · unfold escTextChar at h
      split_ifs at h with h1 h2 h3
      · rcases hx with rfl | rfl <;> exact absurd h (by decide)
      · rcases hx with rfl | rfl <;> exact absurd h (by decide)
      · rcases hx with rfl | rfl <;> exact absurd h (by decide)
      · rcases hx with rfl | rfl
        · exact h2 ((List.mem_singleton.1 h).symm)
        · exact h3 ((List.mem_singleton.1 h).symm)
    · exact ih x hx h

/-- Claim C3, amended: the HTML emitter escapes exactly `&`, `<` and `>`
in text children (so neither raw angle bracket can survive), leaves `"`
and the apostrophe unchanged, and emits raw-HTML nodes verbatim; the
pipeline scenario holds once the input is terminated by a paragraph
break (`<foo> & bar` followed by a blank line), since the engine drops an
unterminated trailing paragraph: the output then contains the escaped
text and never the raw sequence. -/
theorem c3_amended :
    (∀ s : String, '<' ∉ (encode_text s).data ∧ '>' ∉ (encode_text s).data) ∧
    (∀ (fuel : Nat) (s : String), displayNode (fuel+1) (Node.rawHtml s) = s) ∧
    displayNode 1 (Node.text ("&<>\"\x27")) = "&amp;&lt;&gt;\"\x27" ∧
    (pipeline c3AmendedInput).map
        (fun s => containsSub ("&lt;foo&gt; &amp; bar").data s.data) = some true ∧
    (pipeline c3AmendedInput).map
        (fun s => containsSub ("<foo").data s.data) = some false := by
  refine ⟨?_, ?_, rfl, rfl, rfl⟩
  · intro s
    exact ⟨escList_no_raw_angle s.data '<' (Or.inl rfl),
           escList_no_raw_angle s.data '>' (Or.inr rfl)⟩
  · intro fuel s
    rfl

/-! ### Claim C5 — amended claim -/

/-- Claim C5, amended: immediately after the command sigil, exactly the
four characters `%`, `\`, `}` and newline are escapes — the two source
characters collapse to a single raw element carrying the escaped
character, and the loop continues on the remaining input.  The opening
brace is not in the set (see the counterexample). -/
theorem c5_amended :
    (∀ (fuel : Nat) (ctx : Option CName) (c : Char) (rest : List Char),
      c ∈ escapeChars →
      topLoop (fuel+1) ctx ('\\' :: c :: rest)
        = (topLoop fuel ctx rest).map
            (fun r => (r.1, PElement.raw (String.mk [c]) :: r.2))) ∧
    document ("\\" ++ "%") = .ok [PElement.raw "%"] ∧
    document ("\\" ++ "\\") = .ok [PElement.raw "\\"] ∧
    document ("\\" ++ "\x7d") = .ok [PElement.raw "\x7d"] ∧
    document ("\\" ++ "\n") = .ok [PElement.raw "\n"] := by
  refine ⟨?_, rfl, rfl, rfl, rfl⟩
  intro fuel ctx c rest hc
  have hstep : topLoop (fuel+1) ctx ('\\' :: c :: rest)
      = (if c ∈ escapeChars then
          (topLoop fuel ctx rest).map
            (fun r => (r.1, PElement.raw (String.mk [c]) :: r.2))
        else commandTail fuel ctx (c :: rest)) := rfl
  rw [hstep, if_pos hc]

/-- Witness for the amended C5 at the escaped closing brace. -/
theorem c5_amended_witness :
    (('\x7d' : Char) ∈ escapeChars) ∧
    topLoop 2 Option.none ('\\' :: '\x7d' :: [])
      = (topLoop 1 Option.none []).map
          (fun r => (r.1, PElement.raw (String.mk ['\x7d']) :: r.2)) :=
  ⟨by decide, c5_amended.1 1 Option.none '\x7d' [] (by decide)⟩

/-! ### Claim C6 -/

/-- A valid identifier character list: non-empty, all alphanumeric. -/
def goodIdent (l : List Char) : Prop :=
  l ≠ [] ∧ l.all Char.isAlphanum

theorem takeWhile_append_stop (p : Char → Bool) :
    ∀ (A : List Char) (c : Char) (r : List Char), A.all p → p c = false →
      (A ++ c :: r).takeWhile p = A ∧ (A ++ c :: r).dropWhile p = c :: r := by
  intro A
  induction A with
  | nil =>
    intro c r _ hc
    constructor
    · rw [List.nil_append, List.takeWhile_cons_of_neg (by simp [hc])]
    · rw [List.nil_append, List.dropWhile_cons_of_neg (by simp [hc])]
  | cons a as ih =>
    intro c r hall hc
    rw [List.all_cons, Bool.and_eq_true] at hall
    have ha : p a = true := hall.1
    have has : as.all p = true := hall.2
    obtain ⟨h1, h2⟩ := ih c r has hc
    constructor
    · rw [List.cons_append, List.takeWhile_cons_of_pos ha, h1]
    · rw [List.cons_append, List.dropWhile_cons_of_pos ha, h2]

theorem identP_append (A : List Char) (c : Char) (r : List Char)
    (hA : goodIdent A) (hc : Char.isAlphanum c = false) :
    identP (A ++ c :: r) = some (A, c :: r) := by
  obtain ⟨hne, hall⟩ := hA
  obtain ⟨h1, h2⟩ := takeWhile_append_stop Char.isAlphanum A c r hall hc
  unfold identP
  rw [h1, h2]
  have hA' : A.isEmpty = false := by
    cases A with
    | nil => exact absurd rfl hne
    | cons x xs => rfl
  rw [hA']
  rfl

theorem commandNameP_append (A : List Char) (r : List Char) (hA : goodIdent A) :
    commandNameP (A ++ '\x7d' :: r) = some (⟨String.mk A, Option.none⟩, '\x7d' :: r) := by
  unfold commandNameP
  rw [identP_append A '\x7d' r hA (by decide)]
  rfl

theorem blockNameP_append (A : List Char) (r : List Char) (hA : goodIdent A) :
    blockNameP ('\x7b' :: (A ++ '\x7d' :: r)) = some (⟨String.mk A, Option.none⟩, r) := by
  have h : blockNameP ('\x7b' :: (A ++ '\x7d' :: r))
      = (match commandNameP (A ++ '\x7d' :: r) with
         | some (n, '\x7d' :: rr) => some (n, rr)
         | _ => Option.none) := rfl
  rw [h, commandNameP_append A r hA]
  rfl

/-- Claim C6: a `begin{A}` block closed by `end{B}` with `A ≠ B` (command
names compared on namespace and local name) is the fatal mismatched-block
error, carrying both names.  The general statement covers the `end`
handling of the stream loop under an arbitrary open-block context; the
closed statement is the claim's concrete scenario. -/
theorem c6_mismatched_block :
    (∀ (fuel : Nat) (start : CName) (B : List Char) (rest : List Char),
      goodIdent B → (⟨String.mk B, Option.none⟩ : CName) ≠ start →
      topLoop (fuel+2) (some start)
          ('\\' :: 'e' :: 'n' :: 'd' :: '\x7b' :: (B ++ '\x7d' :: rest))
        = .error (.mismatchedBlock ⟨String.mk B, Option.none⟩ start)) ∧
    document c6Input
      = .error (.mismatchedBlock ⟨"bar", Option.none⟩ ⟨"foo", Option.none⟩) := by
  refine ⟨?_, rfl⟩
  intro fuel start B rest hB hne
  have h1 : topLoop (fuel+2) (some start)
        ('\\' :: 'e' :: 'n' :: 'd' :: '\x7b' :: (B ++ '\x7d' :: rest))
      = commandTail (fuel+1) (some start)
          ('e' :: 'n' :: 'd' :: '\x7b' :: (B ++ '\x7d' :: rest)) := rfl
  have h2 : commandTail (fuel+1) (some start)
        ('e' :: 'n' :: 'd' :: '\x7b' :: (B ++ '\x7d' :: rest))
      = (match blockNameP ('\x7b' :: (B ++ '\x7d' :: rest)) with
         | Option.none => .error .malformed
         | some (real, cur2) =>
            match some start with
            | Option.none => .error (.strayEnd real)
            | some st =>
              if st ≠ real then .error (.mismatchedBlock real st)
              else .ok (cur2, ([] : List PElement))) := rfl
  rw [h1, h2, blockNameP_append B rest hB]
  show (if start ≠ (⟨String.mk B, Option.none⟩ : CName)
        then Except.error (PErr.mismatchedBlock ⟨String.mk B, Option.none⟩ start)
        else Except.ok (rest, ([] : List PElement)))
      = Except.error (PErr.mismatchedBlock ⟨String.mk B, Option.none⟩ start)
  rw [if_pos (Ne.symm hne)]

/-- Witness for C6 on closing a `y` block while an `x` block is open. -/
theorem c6_mismatched_block_witness :
    goodIdent ("y".data) ∧
    topLoop 2 (some (⟨"x", Option.none⟩ : CName))
        ('\\' :: 'e' :: 'n' :: 'd' :: '\x7b' :: ("y".data ++ '\x7d' :: []))
      = .error (.mismatchedBlock ⟨String.mk "y".data, Option.none⟩ ⟨"x", Option.none⟩) :=
  ⟨⟨by decide, by decide⟩,
    c6_mismatched_block.1 0 ⟨"x", Option.none⟩ "y".data []
      ⟨by decide, by decide⟩ (by decide)⟩

end PX
